import Mathlib

/-!
Verification model for the `regex-automata` DFA core exposed by
`src/clamor_regex.h`.  The header ships only the public declarations
(`DenseDFA`, `Regex`, `regex_create`, `regex_match`) together with their
documentation; the operational behaviour below is therefore modelled from
the specification (`spec.md`).  Bytes are modelled as `Nat` values `< 256`,
state identifiers as `Nat`, and buffers as lists of byte values.
-/

/-- Endianness of a serialized buffer. -/
inductive Endianness where
  | little
  | big
deriving DecidableEq, Repr

/-- The three execution variants of a dense DFA (spec §3): `Classic` reads
transitions by raw byte, `ByteClass` by equivalence-class index, and
`PremultipliedByteClass` stores state ids pre-multiplied by the class count. -/
inductive Variant where
  | Classic
  | ByteClass
  | PremultipliedByteClass
deriving DecidableEq, Repr, Inhabited

/-- The error kinds of spec §7. -/
inductive RegexError where
  | StateIDOverflow
  | UnsupportedVariantConversion
  | SerializationFormatMismatch
  | InvalidByteClassPartition
deriving DecidableEq, Repr

/-- The closed set of state-identifier widths (spec §3: `u8`, `u16`, `u32`,
`u64`), measured in bytes. -/
inductive Width where
  | W1
  | W2
  | W4
  | W8
deriving DecidableEq, Repr, Inhabited

/-- Number of bytes used by a state id of the given width. -/
def Width.bytes : Width → Nat
  | .W1 => 1
  | .W2 => 2
  | .W4 => 4
  | .W8 => 8

/-- Largest value representable at the given width. -/
def Width.maxVal (w : Width) : Nat := 2 ^ (8 * w.bytes) - 1

/-- Modelled from the spec: a built dense DFA (spec §3).  State `0` is the
dead state (its pre-multiplied id is `0 * numClasses = 0` as well), `classes`
is the 256-entry byte-class table, and `table` holds `numStates × numClasses`
stored transition targets.  In the `PremultipliedByteClass` variant every
stored id (including `start` and the match-state markers) is the logical
state index multiplied by `numClasses`. -/
structure DenseDFA where
  width : Width
  variant : Variant
  numClasses : Nat
  classes : List Nat
  numStates : Nat
  table : List Nat
  start : Nat
  matchStates : List Nat
deriving DecidableEq, Repr, Inhabited

/-- The dead state's stored identifier: always `0`. -/
def DenseDFA.dead (_ : DenseDFA) : Nat := 0

/-- `classify(byte) -> class_index` (spec §4.1), a direct table lookup. -/
def DenseDFA.classify (d : DenseDFA) (b : Nat) : Nat := d.classes.getD b 0

/-- Multiplier applied to logical state indices to obtain stored ids. -/
def DenseDFA.stride (d : DenseDFA) : Nat :=
  match d.variant with
  | .PremultipliedByteClass => d.numClasses
  | _ => 1

/-- Row offset of a stored state id into the transition table: the id itself
for the pre-multiplied variant, otherwise the id times the class count. -/
def DenseDFA.rowOffset (d : DenseDFA) (s : Nat) : Nat :=
  match d.variant with
  | .PremultipliedByteClass => s
  | _ => s * d.numClasses

/-- `next_state(current, byte)` (spec §4.2): `table[offset + classify byte]`;
an out-of-range read yields the dead state, which absorbs any undefined
continuation (spec §4.2 failure semantics). -/
def DenseDFA.next_state (d : DenseDFA) (s b : Nat) : Nat :=
  d.table.getD (d.rowOffset s + d.classify b) 0

/-- A bounds-checked variant of `next_state` used to state totality: it
returns `none` whenever the class index or the table index is out of range. -/
def DenseDFA.next_stateChecked (d : DenseDFA) (s b : Nat) : Option Nat :=
  if d.classify b < d.numClasses then
    d.table.get? (d.rowOffset s + d.classify b)
  else none

/-- `is_match(state)` (spec §4.2). -/
def DenseDFA.is_match (d : DenseDFA) (s : Nat) : Bool := d.matchStates.contains s

/-- `is_dead(state)` (spec §4.2). -/
def DenseDFA.is_dead (_ : DenseDFA) (s : Nat) : Bool := s == 0

/-- `start_state()` (spec §4.2). -/
def DenseDFA.start_state (d : DenseDFA) : Nat := d.start

/-- The list of stored state identifiers of a dense DFA. -/
def DenseDFA.stateIds (d : DenseDFA) : List Nat :=
  (List.range d.numStates).map (fun i => i * d.stride)

/-- Modelled from the spec: the build input (spec §4.2 Construction) — a
states × byte-classes transition layout with a 256-entry class table, the
start state and the match states.  State `0` is reserved for the dead
state. -/
structure Topology where
  numClasses : Nat
  classes : List Nat
  numStates : Nat
  table : List Nat
  start : Nat
  matchStates : List Nat
deriving DecidableEq, Repr

/-- Multiplier relevant for the state-id overflow check: the alphabet stride
for the pre-multiplied variant, `1` otherwise (spec §7 `StateIDOverflow`). -/
def strideMult (v : Variant) (t : Topology) : Nat :=
  match v with
  | .PremultipliedByteClass => t.numClasses
  | _ => 1

/-- Normalize a build input: the dead state always exists (spec §3), so a
built automaton has at least one state. -/
def normTopo (t : Topology) : Topology :=
  { t with numStates := max 1 t.numStates }

/-- One logical transition entry of the build input; state `0` is forced to
self-loop and any out-of-range target falls back to the dead state (spec §4.2:
`dead` absorbs any undefined continuation). -/
def buildEntry (t : Topology) (s c : Nat) : Nat :=
  if s = 0 then 0
  else
    let x := t.table.getD (s * t.numClasses + c) 0
    if x < t.numStates then x else 0

/-- The built transition table for the class-indexed variants; `mult` is `1`
for `ByteClass` and the class count for `PremultipliedByteClass`. -/
def buildTableBC (t : Topology) (mult : Nat) : List Nat :=
  (List.range (t.numStates * t.numClasses)).map
    (fun i => buildEntry t (i / t.numClasses) (i % t.numClasses) * mult)

/-- The built transition table for the `Classic` variant: the class-indexed
layout expanded to one column per raw byte value. -/
def buildTableClassic (t : Topology) : List Nat :=
  (List.range (t.numStates * 256)).map
    (fun i => buildEntry t (i / 256) (t.classes.getD (i % 256) 0))

/-- The automaton assembled on a successful build: the start state and the
match markers are clamped to valid, non-dead states, and for
`PremultipliedByteClass` every stored id is pre-multiplied by the class
count. -/
def builtDFA (w : Width) (v : Variant) (t : Topology) : DenseDFA :=
  let st := if t.start < t.numStates then t.start else 0
  let ms := t.matchStates.filter (fun m => decide (0 < m ∧ m < t.numStates))
  match v with
  | .Classic =>
      { width := w, variant := v, numClasses := 256,
        classes := List.range 256, numStates := t.numStates,
        table := buildTableClassic t, start := st, matchStates := ms }
  | .ByteClass =>
      { width := w, variant := v, numClasses := t.numClasses,
        classes := t.classes, numStates := t.numStates,
        table := buildTableBC t 1, start := st, matchStates := ms }
  | .PremultipliedByteClass =>
      { width := w, variant := v, numClasses := t.numClasses,
        classes := t.classes, numStates := t.numStates,
        table := buildTableBC t t.numClasses, start := st * t.numClasses,
        matchStates := ms.map (fun m => m * t.numClasses) }

/-- Whether a topology's byte-class table is admissible: 256 entries, each a
valid class index of a class count at most 256. -/
def classTableOk (t : Topology) : Prop :=
  t.classes.length = 256 ∧ t.numClasses ≤ 256 ∧
    t.classes.all (fun c => decide (c < t.numClasses))

instance (t : Topology) : Decidable (classTableOk t) := by
  unfold classTableOk
  infer_instance

/-- Modelled from the spec: dense DFA construction (spec §4.2), absent from
`src/clamor_regex.h` which only declares `DenseDFA`.  It fails with
`StateIDOverflow` iff the maximum state identifier times the stride exceeds
the chosen width's range, validates the byte-class table, and otherwise
assembles the automaton for the requested variant. -/
def DenseDFA.build (w : Width) (v : Variant) (t0 : Topology) :
    Except RegexError DenseDFA :=
  if (t0.numStates - 1) * strideMult v t0 > w.maxVal then
    Except.error RegexError.StateIDOverflow
  else if classTableOk t0 then Except.ok (builtDFA w v (normTopo t0))
  else Except.error RegexError.InvalidByteClassPartition

/-- Whether a width can represent every stored id of the default
(pre-multiplied) encoding of a topology. -/
def widthFits (t : Topology) (w : Width) : Bool :=
  decide ((t.numStates - 1) * t.numClasses ≤ w.maxVal)

/-- Modelled from the spec: `DenseDFA::new`'s default configuration — the
narrowest width that fits the automaton (spec §3 State ID) and the default
`PremultipliedByteClass` variant (header §Variants). -/
def DenseDFA.buildDefault (t : Topology) : Except RegexError DenseDFA :=
  let w :=
    if widthFits t Width.W1 then Width.W1
    else if widthFits t Width.W2 then Width.W2
    else if widthFits t Width.W4 then Width.W4
    else Width.W8
  DenseDFA.build w Variant.PremultipliedByteClass t

/-- The shared matching contract (spec §3): start state, next-state-on-byte,
is-match and is-dead, used uniformly by the search algorithms. -/
structure Autom where
  start : Nat
  next : Nat → Nat → Nat
  isMatch : Nat → Bool
  isDead : Nat → Bool

/-- View a dense DFA through the matching contract. -/
def DenseDFA.toAutom (d : DenseDFA) : Autom :=
  { start := d.start, next := d.next_state,
    isMatch := d.is_match, isDead := d.is_dead }

/-- Run an automaton over a byte list from a given state. -/
def runDFA (a : Autom) (s : Nat) : List Nat → Nat
  | [] => s
  | b :: bs => runDFA a (a.next s b) bs

/-- Modelled from the spec: the forward scan of `find_end` (spec §4.4).
`pos` is the number of bytes consumed so far and `last` the most recent
offset at which the automaton entered a match state; reaching the dead state
terminates the search early. -/
def findEndFrom (a : Autom) (s pos : Nat) (last : Option Nat) :
    List Nat → Option Nat
  | [] => last
  | b :: bs =>
      if a.isDead s then last
      else
        let s' := a.next s b
        findEndFrom a s' (pos + 1)
          (if a.isMatch s' then some (pos + 1) else last) bs

/-- `find_end(input)` (spec §4.4): offset of the end of the leftmost-first
match, if any.  The start state itself counts as a match at offset `0`. -/
def find_end (a : Autom) (input : List Nat) : Option Nat :=
  findEndFrom a a.start 0 (if a.isMatch a.start then some 0 else none) input

/-- Modelled from the spec: the single forward pass of `is_match`
(spec §4.4) — stop at the first match state, fail fast on the dead state,
report `false` at end of input. -/
def isMatchFrom (a : Autom) (s : Nat) : List Nat → Bool
  | [] => a.isMatch s
  | b :: bs =>
      if a.isMatch s then true
      else if a.isDead s then false
      else isMatchFrom a (a.next s b) bs

/-- Modelled from the spec: the backward scan of `find` (spec §4.4).  `bs` is
the already-scanned prefix reversed, `pos` counts down from the match end,
and `best` holds the smallest offset at which the reverse automaton entered a
match state (leftmost-first: the smallest start wins, spec §3 Match). -/
def findStartFrom (a : Autom) (s pos : Nat) (best : Option Nat) :
    List Nat → Option Nat
  | [] => best
  | b :: bs =>
      if a.isDead s then best
      else
        let s' := a.next s b
        findStartFrom a s' (pos - 1)
          (if a.isMatch s' then some (pos - 1) else best) bs

/-- Run the reverse automaton backward over the scanned bytes `p` (the input
up to the match end) and report the match start, if any. -/
def find_start (a : Autom) (p : List Nat) : Option Nat :=
  findStartFrom a a.start p.length
    (if a.isMatch a.start then some p.length else none) p.reverse

/-- A regex couples a forward automaton with a reverse automaton
(spec §3). -/
structure Regex where
  forward : Autom
  reverse : Autom

/-- `from_dfas(forward, reverse)` (spec §4.4): direct composition. -/
def Regex.from_dfas (f r : Autom) : Regex := { forward := f, reverse := r }

/-- `Regex.is_match(input)` (spec §4.4): one forward pass. -/
def Regex.is_match (re : Regex) (input : List Nat) : Bool :=
  isMatchFrom re.forward re.forward.start input

/-- `Regex.find(input)` (spec §4.4): forward search for the match end, then a
backward pass of the reverse automaton over `input[0..end]` for the start. -/
def Regex.find (re : Regex) (input : List Nat) : Option (Nat × Nat) :=
  match find_end re.forward input with
  | none => none
  | some e =>
      match find_start re.reverse (input.take e) with
      | none => none
      | some s => some (s, e)

/-- Coalesce the byte values `lo .. 255` into maximal contiguous ranges with
a common target.  `cur` is the next byte to examine, `tgt` the target shared
by `lo .. cur - 1`, and `fuel` keeps `cur + fuel = 256`. -/
def rangesAux (f : Nat → Nat) : Nat → Nat → Nat → Nat → List (Nat × Nat × Nat)
  | 0, lo, cur, tgt => [(lo, cur - 1, tgt)]
  | fuel + 1, lo, cur, tgt =>
      if f cur = tgt then rangesAux f fuel lo (cur + 1) tgt
      else (lo, cur - 1, tgt) :: rangesAux f fuel cur (cur + 1) (f cur)

/-- The ordered, non-overlapping, boundary-complete range list of one state
(spec §3 Sparse DFA), covering all 256 byte values. -/
def byteRanges (f : Nat → Nat) : List (Nat × Nat × Nat) :=
  rangesAux f 255 0 1 (f 0)

/-- Resolve a byte against an ordered range list; bytes covered by no range
fall back to the dead state. -/
def lookupRanges : List (Nat × Nat × Nat) → Nat → Nat
  | [], _ => 0
  | (lo, hi, tgt) :: rs, b =>
      if lo ≤ b ∧ b ≤ hi then tgt else lookupRanges rs b

/-- Modelled from the spec: a sparse DFA (spec §3) — per-state ordered range
lists mapped from the state's stored identifier, plus the start state and
the match-state markers carried over from the dense source. -/
structure SparseDFA where
  states : List (Nat × List (Nat × Nat × Nat))
  start : Nat
  matchStates : List Nat
deriving DecidableEq, Repr

/-- Modelled from the spec: `to_sparse` (spec §4.3) — re-encode a dense DFA
by coalescing, for every state, the byte values with identical targets into
maximal contiguous ranges. -/
def DenseDFA.to_sparse (d : DenseDFA) : SparseDFA :=
  { states := d.stateIds.map (fun s => (s, byteRanges (fun b => d.next_state s b))),
    start := d.start, matchStates := d.matchStates }

/-- Sparse `next_state` (spec §4.3): scan the current state's range list. -/
def SparseDFA.next_state (sp : SparseDFA) (s b : Nat) : Nat :=
  match sp.states.lookup s with
  | some rs => lookupRanges rs b
  | none => 0

/-- Whether some range of an ordered range list contains the byte `b`. -/
def coveredRanges : List (Nat × Nat × Nat) → Nat → Bool
  | [], _ => false
  | (lo, hi, _) :: rs, b => (decide (lo ≤ b) && decide (b ≤ hi)) || coveredRanges rs b

/-- A bounds-checked variant of the sparse `next_state` used to state
totality: it returns `none` when the state has no range list or no range of
that list covers the byte. -/
def SparseDFA.next_stateChecked (sp : SparseDFA) (s b : Nat) : Option Nat :=
  match sp.states.lookup s with
  | some rs => if coveredRanges rs b then some (lookupRanges rs b) else none
  | none => none

/-- Sparse `is_match`. -/
def SparseDFA.is_match (sp : SparseDFA) (s : Nat) : Bool :=
  sp.matchStates.contains s

/-- Sparse `is_dead`. -/
def SparseDFA.is_dead (_ : SparseDFA) (s : Nat) : Bool := s == 0

/-- Sparse `start_state`. -/
def SparseDFA.start_state (sp : SparseDFA) : Nat := sp.start

/-- View a sparse DFA through the matching contract. -/
def SparseDFA.toAutom (sp : SparseDFA) : Autom :=
  { start := sp.start, next := sp.next_state,
    isMatch := sp.is_match, isDead := sp.is_dead }

/-- The serialization format version tag. -/
def FORMAT_VERSION : Nat := 2

/-- The endianness tag byte: `0` for little endian, `1` for big endian. -/
def endianTag : Endianness → Nat
  | .little => 0
  | .big => 1

/-- The width tag byte: the width in bytes. -/
def widthTag (w : Width) : Nat := w.bytes

/-- Decode a width tag byte. -/
def tagWidth : Nat → Option Width
  | 1 => some Width.W1
  | 2 => some Width.W2
  | 4 => some Width.W4
  | 8 => some Width.W8
  | _ => none

/-- The variant tag byte. -/
def variantTag : Variant → Nat
  | .Classic => 0
  | .ByteClass => 1
  | .PremultipliedByteClass => 2

/-- Decode a variant tag byte. -/
def tagVariant : Nat → Option Variant
  | 0 => some Variant.Classic
  | 1 => some Variant.ByteClass
  | 2 => some Variant.PremultipliedByteClass
  | _ => none

/-- Little-endian byte encoding of `n` into `k` bytes. -/
def natToBytesLE (n : Nat) : Nat → List Nat
  | 0 => []
  | k + 1 => n % 256 :: natToBytesLE (n / 256) k

/-- Encode `n` into `k` bytes in the requested byte order. -/
def natBytes (e : Endianness) (k n : Nat) : List Nat :=
  match e with
  | .little => natToBytesLE n k
  | .big => (natToBytesLE n k).reverse

/-- Little-endian byte decoding. -/
def bytesToNatLE : List Nat → Nat
  | [] => 0
  | b :: bs => b % 256 + 256 * bytesToNatLE bs

/-- Decode a byte chunk in the requested byte order. -/
def readNat (e : Endianness) (bs : List Nat) : Nat :=
  match e with
  | .little => bytesToNatLE bs
  | .big => bytesToNatLE bs.reverse

/-- Modelled from the spec: `to_bytes(endianness)` (spec §4.5, §6 layout):
`[version u32][endian u8][width u8][variant u8][num_classes u32]
[byte_class_table 256][num_states u32][transition_table]`, extended with the
start state and the match-state list (written between `num_states` and the
transition table), which the round-trip invariant of spec §4.5 requires the
buffer to carry. -/
def DenseDFA.to_bytes (d : DenseDFA) (e : Endianness) : List Nat :=
  natBytes e 4 FORMAT_VERSION ++ [endianTag e] ++ [widthTag d.width] ++
    [variantTag d.variant] ++ natBytes e 4 d.numClasses ++ d.classes ++
    natBytes e 4 d.numStates ++ natBytes e d.width.bytes d.start ++
    natBytes e 4 d.matchStates.length ++
    (d.matchStates.map (natBytes e d.width.bytes)).flatten ++
    (d.table.map (natBytes e d.width.bytes)).flatten

/-- Split `k` bytes off the front of a buffer; fails closed when the buffer
is too short. -/
def takeBytes (k : Nat) (bs : List Nat) :
    Except RegexError (List Nat × List Nat) :=
  if k ≤ bs.length then Except.ok (bs.take k, bs.drop k)
  else Except.error RegexError.SerializationFormatMismatch

/-- Read `n` fixed-width values off the front of a buffer. -/
def readChunks (e : Endianness) (k : Nat) :
    Nat → List Nat → Except RegexError (List Nat × List Nat)
  | 0, bs => Except.ok ([], bs)
  | n + 1, bs => do
      let (c, r) ← takeBytes k bs
      let (vs, r') ← readChunks e k n r
      Except.ok (readNat e c :: vs, r')

/-- Modelled from the spec: `from_bytes(buffer)` (spec §4.5) with the
decoder's native endianness made explicit.  It validates the format-version
tag, the endianness tag, the width and variant tags, and the buffer length
against the declared dimensions before exposing any automaton; every failure
is `SerializationFormatMismatch`. -/
def DenseDFA.from_bytes (native : Endianness) (buf : List Nat) :
    Except RegexError DenseDFA := do
  let (vb, r1) ← takeBytes 4 buf
  if readNat native vb ≠ FORMAT_VERSION then
    throw RegexError.SerializationFormatMismatch
  let (eb, r2) ← takeBytes 1 r1
  if eb ≠ [endianTag native] then
    throw RegexError.SerializationFormatMismatch
  let (wb, r3) ← takeBytes 1 r2
  let w ← match tagWidth (wb.getD 0 0) with
    | some w => Except.ok w
    | none => throw RegexError.SerializationFormatMismatch
  let (vrb, r4) ← takeBytes 1 r3
  let v ← match tagVariant (vrb.getD 0 0) with
    | some v => Except.ok v
    | none => throw RegexError.SerializationFormatMismatch
  let (ncb, r5) ← takeBytes 4 r4
  let nc := readNat native ncb
  let (cls, r6) ← takeBytes 256 r5
  let (nsb, r7) ← takeBytes 4 r6
  let ns := readNat native nsb
  let (stb, r8) ← takeBytes w.bytes r7
  let st := readNat native stb
  let (nmb, r9) ← takeBytes 4 r8
  let nm := readNat native nmb
  let (ms, r10) ← readChunks native w.bytes nm r9
  let (tbl, r11) ← readChunks native w.bytes (ns * nc) r10
  if r11 ≠ [] then throw RegexError.SerializationFormatMismatch
  Except.ok
    { width := w, variant := v, numClasses := nc, classes := cls,
      numStates := ns, table := tbl, start := st, matchStates := ms }

/-- `from_bytes_borrowed(buffer)` (spec §4.5): the zero-copy view performs
the same validation and yields the same mathematical automaton; the memory
aliasing itself is outside a shallow embedding. -/
def DenseDFA.from_bytes_borrowed (native : Endianness) (buf : List Nat) :
    Except RegexError DenseDFA :=
  DenseDFA.from_bytes native buf

/-- Byte class of the `foo[0-9]+` automata: `f` is class 0, `o` class 1,
the digits `0`-`9` class 2, and every other byte class 3. -/
def fooClass (b : Nat) : Nat :=
  if b = 102 then 0
  else if b = 111 then 1
  else if 48 ≤ b ∧ b ≤ 57 then 2 else 3

/-- Modelled from the spec: the compiled forward automaton topology for the
pattern `foo[0-9]+` (pattern compilation itself is outside this core,
spec §1).  State 0 is dead, state 1 the unanchored start, states 2-4 track
the literal `foo`, and state 5 (match) consumes further digits; once the
leftmost match can no longer be extended the automaton falls into the dead
state. -/
def fooFwdTopo : Topology :=
  { numClasses := 4, classes := (List.range 256).map fooClass,
    numStates := 6,
    table :=
      [0, 0, 0, 0,
       2, 1, 1, 1,
       2, 3, 1, 1,
       2, 4, 1, 1,
       2, 1, 5, 1,
       0, 0, 5, 0],
    start := 1, matchStates := [5] }

/-- Modelled from the spec: the compiled reverse automaton topology for
`foo[0-9]+`, recognizing `[0-9]+oof` when fed the scanned bytes in reverse
order, anchored at the match end. -/
def fooRevTopo : Topology :=
  { numClasses := 4, classes := (List.range 256).map fooClass,
    numStates := 6,
    table :=
      [0, 0, 0, 0,
       0, 0, 2, 0,
       0, 3, 2, 0,
       0, 4, 0, 0,
       5, 0, 0, 0,
       0, 0, 0, 0],
    start := 1, matchStates := [5] }

/-- The forward dense DFA for `foo[0-9]+`, built with the default
configuration. -/
def fooFwd : DenseDFA :=
  match DenseDFA.buildDefault fooFwdTopo with
  | Except.ok d => d
  | Except.error _ => default

/-- The reverse dense DFA for `foo[0-9]+`, built with the default
configuration. -/
def fooRev : DenseDFA :=
  match DenseDFA.buildDefault fooRevTopo with
  | Except.ok d => d
  | Except.error _ => default

/-- The regex for `foo[0-9]+` composed from its forward and reverse dense
DFAs. -/
def fooRegex : Regex := Regex.from_dfas fooFwd.toAutom fooRev.toAutom

/-- The input byte sequence `foo12345`. -/
def fooInput : List Nat := [102, 111, 111, 49, 50, 51, 52, 53]

/-- A minimal two-state topology (dead state plus one matching, self-looping
state) used to instantiate general theorems on concrete data. -/
def tinyTopo : Topology :=
  { numClasses := 1, classes := List.replicate 256 0, numStates := 2,
    table := [0, 1], start := 1, matchStates := [1] }

/-- An automaton with an unreachable dead state `0` and a single matching
state `1` that every other state preserves; it matches every input
immediately. -/
def trivAutom : Autom :=
  { start := 1, next := fun s _ => s,
    isMatch := fun s => s == 1, isDead := fun s => s == 0 }

deriving instance DecidableEq for Except

/-- The dense DFA built from `tinyTopo` with the default-style configuration
(`W1`, pre-multiplied). -/
def tinyD : DenseDFA :=
  match DenseDFA.build Width.W1 Variant.PremultipliedByteClass tinyTopo with
  | Except.ok d => d
  | Except.error _ => default

/-- A topology whose maximum state identifier overflows a one-byte state-id
width. -/
def bigTopo : Topology :=
  { numClasses := 1, classes := List.replicate 256 0, numStates := 300,
    table := [], start := 1, matchStates := [] }

/-- The well-formedness facts that a successful build guarantees. -/
structure DFAInv (d : DenseDFA) : Prop where
  posStates : 0 < d.numStates
  posClasses : 0 < d.numClasses
  classLen : d.classes.length = 256
  classLt : ∀ c ∈ d.classes, c < d.numClasses
  classesLe : d.numClasses ≤ 256
  tableLen : d.table.length = d.numStates * d.numClasses
  tableStride : ∀ x ∈ d.table, ∃ i, i < d.numStates ∧ x = i * d.stride
  deadRow : ∀ c, c < d.numClasses → d.table.getD c 0 = 0
  startMem : ∃ i, i < d.numStates ∧ d.start = i * d.stride
  matchMem : ∀ m ∈ d.matchStates, ∃ i, 0 < i ∧ i < d.numStates ∧ m = i * d.stride
  widthTable : ∀ x ∈ d.table, x ≤ d.width.maxVal
  widthStart : d.start ≤ d.width.maxVal
  widthMatch : ∀ m ∈ d.matchStates, m ≤ d.width.maxVal

theorem buildEntry_lt (t : Topology) (s c : Nat) (h : 0 < t.numStates) :
    buildEntry t s c < t.numStates := by
  unfold buildEntry
  split
  · exact h
  · dsimp only
    split
    · assumption
    · exact h

theorem buildEntry_zero (t : Topology) (c : Nat) : buildEntry t 0 c = 0 := by
  simp [buildEntry]

theorem length_buildTableBC (t : Topology) (mult : Nat) :
    (buildTableBC t mult).length = t.numStates * t.numClasses := by
  simp [buildTableBC]

theorem length_buildTableClassic (t : Topology) :
    (buildTableClassic t).length = t.numStates * 256 := by
  simp [buildTableClassic]

theorem mem_buildTableBC (t : Topology) (mult x : Nat)
    (h : x ∈ buildTableBC t mult) : ∃ i c, x = buildEntry t i c * mult := by
  simp only [buildTableBC, List.mem_map, List.mem_range] at h
  obtain ⟨i, _, rfl⟩ := h
  exact ⟨i / t.numClasses, i % t.numClasses, rfl⟩

theorem mem_buildTableClassic (t : Topology) (x : Nat)
    (h : x ∈ buildTableClassic t) : ∃ i c, x = buildEntry t i c := by
  simp only [buildTableClassic, List.mem_map, List.mem_range] at h
  obtain ⟨i, _, rfl⟩ := h
  exact ⟨i / 256, t.classes.getD (i % 256) 0, rfl⟩

theorem getD_buildTableBC (t : Topology) (mult i : Nat)
    (h : i < t.numStates * t.numClasses) :
    (buildTableBC t mult).getD i 0 =
      buildEntry t (i / t.numClasses) (i % t.numClasses) * mult := by
  simp [buildTableBC, List.getD_eq_getElem?_getD, List.getElem?_map,
    List.getElem?_range h]

theorem getD_buildTableClassic (t : Topology) (i : Nat)
    (h : i < t.numStates * 256) :
    (buildTableClassic t).getD i 0 =
      buildEntry t (i / 256) (t.classes.getD (i % 256) 0) := by
  simp [buildTableClassic, List.getD_eq_getElem?_getD, List.getElem?_map,
    List.getElem?_range h]

theorem normTopo_pos (t0 : Topology) : 0 < (normTopo t0).numStates :=
  le_max_left 1 t0.numStates

theorem normTopo_sub_one (t0 : Topology) :
    (normTopo t0).numStates - 1 = t0.numStates - 1 := by
  show max 1 t0.numStates - 1 = t0.numStates - 1
  rcases Nat.eq_zero_or_pos t0.numStates with h0 | h0
  · simp [h0]
  · rw [Nat.max_eq_right h0]

theorem build_ok_elim (w : Width) (v : Variant) (t0 : Topology) (d : DenseDFA)
    (h : DenseDFA.build w v t0 = Except.ok d) :
    (t0.numStates - 1) * strideMult v t0 ≤ w.maxVal ∧ classTableOk t0 ∧
      d = builtDFA w v (normTopo t0) := by
  unfold DenseDFA.build at h
  split at h
  · exact absurd h (by simp)
  case isFalse h1 =>
    split at h
    case isTrue h2 => exact ⟨Nat.le_of_not_lt h1, h2, (Except.ok.inj h).symm⟩
    case isFalse => exact absurd h (by simp)

theorem builtDFA_inv (w : Width) (v : Variant) (t0 : Topology)
    (hov : (t0.numStates - 1) * strideMult v t0 ≤ w.maxVal)
    (hct : classTableOk t0) : DFAInv (builtDFA w v (normTopo t0)) := by
  obtain ⟨hlen, hle, hall⟩ := hct
  rw [List.all_eq_true] at hall
  have hall' : ∀ c ∈ t0.classes, c < t0.numClasses := by
    intro c hc
    exact of_decide_eq_true (hall c hc)
  have hpos : 0 < t0.numClasses := by
    have h0 : t0.classes ≠ [] := by
      intro he
      rw [he] at hlen
      simp at hlen
    obtain ⟨c, hc⟩ := List.exists_mem_of_ne_nil _ h0
    exact Nat.lt_of_le_of_lt (Nat.zero_le c) (hall' c hc)
  set t := normTopo t0 with ht
  have htn : 0 < t.numStates := normTopo_pos t0
  have hsub : t.numStates - 1 = t0.numStates - 1 := normTopo_sub_one t0
  have hlt_max : ∀ i, i < t.numStates → i * strideMult v t0 ≤ w.maxVal := by
    intro i hi
    calc i * strideMult v t0 ≤ (t.numStates - 1) * strideMult v t0 :=
          Nat.mul_le_mul_right _ (Nat.le_sub_one_of_lt hi)
    _ = (t0.numStates - 1) * strideMult v t0 := by rw [hsub]
    _ ≤ w.maxVal := hov
  cases v with
  | Classic =>
      have hsm : strideMult Variant.Classic t0 = 1 := rfl
      refine ⟨htn, by simp [builtDFA], by simp [builtDFA], ?_, by simp [builtDFA], ?_, ?_, ?_, ?_, ?_, ?_, ?_, ?_⟩
      · intro c hc
        simpa [builtDFA] using List.mem_range.mp (by simpa [builtDFA] using hc)
      · simp [builtDFA, length_buildTableClassic]
      · intro x hx
        obtain ⟨i, c, rfl⟩ := mem_buildTableClassic t x (by simpa [builtDFA] using hx)
        exact ⟨buildEntry t i c, buildEntry_lt t i c htn, by simp [builtDFA, DenseDFA.stride]⟩
      · intro c hc
        have hc' : c < (256 : Nat) := by simpa [builtDFA] using hc
        have hlt : c < t.numStates * 256 :=
          Nat.lt_of_lt_of_le hc' (Nat.le_mul_of_pos_left _ htn)
        show (buildTableClassic t).getD c 0 = 0
        rw [getD_buildTableClassic t c hlt, Nat.div_eq_of_lt hc', buildEntry_zero]
      · show ∃ i, i < t.numStates ∧
          (if t.start < t.numStates then t.start else 0) = i * _
        by_cases hst : t.start < t.numStates
        · exact ⟨t.start, hst, by simp [hst, builtDFA, DenseDFA.stride]⟩
        · exact ⟨0, htn, by simp [hst, builtDFA, DenseDFA.stride]⟩
      · intro m hm
        have hm' : m ∈ t.matchStates ∧ 0 < m ∧ m < t.numStates := by
          simpa [builtDFA] using hm
        exact ⟨m, hm'.2.1, hm'.2.2, by simp [builtDFA, DenseDFA.stride]⟩
      · intro x hx
        obtain ⟨i, c, rfl⟩ := mem_buildTableClassic t x (by simpa [builtDFA] using hx)
        have := hlt_max (buildEntry t i c) (buildEntry_lt t i c htn)
        simpa [hsm, builtDFA] using this
      · show (if t.start < t.numStates then t.start else 0) ≤ w.maxVal
        by_cases hst : t.start < t.numStates
        · have := hlt_max t.start hst
          rw [hsm, Nat.mul_one] at this
          simpa [hst] using this
        · simpa [hst] using Nat.zero_le _
      · intro m hm
        have hm' : m ∈ t.matchStates ∧ 0 < m ∧ m < t.numStates := by
          simpa [builtDFA] using hm
        simpa [hsm, builtDFA] using hlt_max m hm'.2.2
  | ByteClass =>
      have hsm : strideMult Variant.ByteClass t0 = 1 := rfl
      have hcc : (normTopo t0).numClasses = t0.numClasses := rfl
      have hcl : (normTopo t0).classes = t0.classes := rfl
      refine ⟨htn, by simpa [builtDFA, hcc] using hpos, by simpa [builtDFA, hcl] using hlen,
        ?_, by simpa [builtDFA, hcc] using hle, ?_, ?_, ?_, ?_, ?_, ?_, ?_, ?_⟩
      · intro c hc
        exact hall' c (by simpa [builtDFA, hcl] using hc)
      · simp [builtDFA, length_buildTableBC]
      · intro x hx
        obtain ⟨i, c, rfl⟩ := mem_buildTableBC t 1 x (by simpa [builtDFA] using hx)
        exact ⟨buildEntry t i c, buildEntry_lt t i c htn, by simp [builtDFA, DenseDFA.stride]⟩
      · intro c hc
        have hc' : c < t.numClasses := by simpa [builtDFA] using hc
        have hcp : 0 < t.numClasses := Nat.lt_of_le_of_lt (Nat.zero_le c) hc'
        have hlt : c < t.numStates * t.numClasses :=
          Nat.lt_of_lt_of_le hc' (Nat.le_mul_of_pos_left _ htn)
        show (buildTableBC t 1).getD c 0 = 0
        rw [getD_buildTableBC t 1 c hlt, Nat.div_eq_of_lt hc', Nat.mod_eq_of_lt hc',
          buildEntry_zero, Nat.zero_mul]
      · show ∃ i, i < t.numStates ∧
          (if t.start < t.numStates then t.start else 0) = i * _
        by_cases hst : t.start < t.numStates
        · exact ⟨t.start, hst, by simp [hst, builtDFA, DenseDFA.stride]⟩
        · exact ⟨0, htn, by simp [hst, builtDFA, DenseDFA.stride]⟩
      · intro m hm
        have hm' : m ∈ t.matchStates ∧ 0 < m ∧ m < t.numStates := by
          simpa [builtDFA] using hm
        exact ⟨m, hm'.2.1, hm'.2.2, by simp [builtDFA, DenseDFA.stride]⟩
      · intro x hx
        obtain ⟨i, c, rfl⟩ := mem_buildTableBC t 1 x (by simpa [builtDFA] using hx)
        have := hlt_max (buildEntry t i c) (buildEntry_lt t i c htn)
        simpa [hsm, builtDFA] using this
      · show (if t.start < t.numStates then t.start else 0) ≤ w.maxVal
        by_cases hst : t.start < t.numStates
        · have := hlt_max t.start hst
          rw [hsm, Nat.mul_one] at this
          simpa [hst] using this
        · simpa [hst] using Nat.zero_le _
      · intro m hm
        have hm' : m ∈ t.matchStates ∧ 0 < m ∧ m < t.numStates := by
          simpa [builtDFA] using hm
        simpa [hsm, builtDFA] using hlt_max m hm'.2.2
  | PremultipliedByteClass =>
      have hsm : strideMult Variant.PremultipliedByteClass t0 = t.numClasses := rfl
      have hcc : (normTopo t0).numClasses = t0.numClasses := rfl
      have hcl : (normTopo t0).classes = t0.classes := rfl
      have hstr : (builtDFA w Variant.PremultipliedByteClass t).stride = t.numClasses := by
        simp [builtDFA, DenseDFA.stride]
      refine ⟨htn, by simpa [builtDFA, hcc] using hpos, by simpa [builtDFA, hcl] using hlen,
        ?_, by simpa [builtDFA, hcc] using hle, ?_, ?_, ?_, ?_, ?_, ?_, ?_, ?_⟩
      · intro c hc
        exact hall' c (by simpa [builtDFA, hcl] using hc)
      · simp [builtDFA, length_buildTableBC]
      · intro x hx
        obtain ⟨i, c, rfl⟩ :=
          mem_buildTableBC t t.numClasses x (by simpa [builtDFA] using hx)
        exact ⟨buildEntry t i c, buildEntry_lt t i c htn, by rw [hstr]⟩
      · intro c hc
        have hc' : c < t.numClasses := by simpa [builtDFA] using hc
        have hlt : c < t.numStates * t.numClasses :=
          Nat.lt_of_lt_of_le hc' (Nat.le_mul_of_pos_left _ htn)
        show (buildTableBC t t.numClasses).getD c 0 = 0
        rw [getD_buildTableBC t t.numClasses c hlt, Nat.div_eq_of_lt hc',
          Nat.mod_eq_of_lt hc', buildEntry_zero, Nat.zero_mul]
      · refine ⟨if t.start < t.numStates then t.start else 0, ?_,
          by rw [hstr]; simp [builtDFA]⟩
        have hnn : (builtDFA w Variant.PremultipliedByteClass t).numStates =
            t.numStates := by simp [builtDFA]
        rw [hnn]
        by_cases hst : t.start < t.numStates
        · simpa [hst] using hst
        · simpa [hst] using htn
      · intro m hm
        have hm1 : m ∈ (t.matchStates.filter
            (fun m1 => decide (0 < m1 ∧ m1 < t.numStates))).map
              (fun m0 => m0 * t.numClasses) := by
          simpa [builtDFA] using hm
        obtain ⟨m0, hmem, rfl⟩ := List.mem_map.mp hm1
        have hm2 : 0 < m0 ∧ m0 < t.numStates := by
          simpa using (List.mem_filter.mp hmem).2
        exact ⟨m0, hm2.1, hm2.2, by rw [hstr]⟩
      · intro x hx
        obtain ⟨i, c, rfl⟩ :=
          mem_buildTableBC t t.numClasses x (by simpa [builtDFA] using hx)
        have := hlt_max (buildEntry t i c) (buildEntry_lt t i c htn)
        simpa [hsm, builtDFA] using this
      · show (if t.start < t.numStates then t.start else 0) * t.numClasses ≤ w.maxVal
        by_cases hst : t.start < t.numStates
        · have := hlt_max t.start hst
          rw [hsm] at this
          simpa [hst] using this
        · simpa [hst] using Nat.zero_le _
      · intro m hm
        have hm1 : m ∈ (t.matchStates.filter
            (fun m1 => decide (0 < m1 ∧ m1 < t.numStates))).map
              (fun m0 => m0 * t.numClasses) := by
          simpa [builtDFA] using hm
        obtain ⟨m0, hmem, rfl⟩ := List.mem_map.mp hm1
        have hm2 : 0 < m0 ∧ m0 < t.numStates := by
          simpa using (List.mem_filter.mp hmem).2
        have := hlt_max m0 hm2.2
        rw [hsm] at this
        exact this

theorem build_ok_inv (w : Width) (v : Variant) (t0 : Topology) (d : DenseDFA)
    (h : DenseDFA.build w v t0 = Except.ok d) : DFAInv d := by
  obtain ⟨hov, hct, rfl⟩ := build_ok_elim w v t0 d h
  exact builtDFA_inv w v t0 hov hct

theorem DFAInv.stridePos (d : DenseDFA) (hd : DFAInv d) : 0 < d.stride := by
  unfold DenseDFA.stride
  split
  · exact hd.posClasses
  · exact Nat.one_pos

theorem DFAInv.classify_lt (d : DenseDFA) (hd : DFAInv d) (b : Nat) :
    d.classify b < d.numClasses := by
  unfold DenseDFA.classify
  by_cases hb : b < d.classes.length
  · rw [List.getD_eq_getElem _ _ hb]
    exact hd.classLt _ (d.classes.getElem_mem hb)
  · rw [List.getD_eq_default _ _ (Nat.le_of_not_lt hb)]
    exact hd.posClasses

theorem mem_stateIds (d : DenseDFA) (s : Nat) :
    s ∈ d.stateIds ↔ ∃ i, i < d.numStates ∧ s = i * d.stride := by
  simp [DenseDFA.stateIds, List.mem_map, List.mem_range, eq_comm]

theorem DFAInv.dead_mem (d : DenseDFA) (hd : DFAInv d) : (0 : Nat) ∈ d.stateIds :=
  (mem_stateIds d 0).mpr ⟨0, hd.posStates, by simp⟩

theorem DFAInv.start_mem (d : DenseDFA) (hd : DFAInv d) : d.start ∈ d.stateIds := by
  obtain ⟨i, hi, he⟩ := hd.startMem
  exact (mem_stateIds d _).mpr ⟨i, hi, he⟩

theorem DFAInv.rowOffset_eq (d : DenseDFA) (hd : DFAInv d) (i : Nat) :
    d.rowOffset (i * d.stride) = i * d.numClasses := by
  rcases hv : d.variant
  all_goals simp [DenseDFA.rowOffset, DenseDFA.stride, hv]

theorem DFAInv.next_state_getD (d : DenseDFA) (hd : DFAInv d) (i b : Nat) :
    d.next_state (i * d.stride) b = d.table.getD (i * d.numClasses + d.classify b) 0 := by
  unfold DenseDFA.next_state
  rw [hd.rowOffset_eq d i]

theorem DFAInv.next_mem (d : DenseDFA) (hd : DFAInv d) (s b : Nat)
    (hs : s ∈ d.stateIds) : d.next_state s b ∈ d.stateIds := by
  obtain ⟨i, hi, rfl⟩ := (mem_stateIds d s).mp hs
  rw [hd.next_state_getD d i b]
  have hidx : i * d.numClasses + d.classify b < d.table.length := by
    rw [hd.tableLen]
    calc i * d.numClasses + d.classify b
        < i * d.numClasses + d.numClasses :=
          Nat.add_lt_add_left (hd.classify_lt d b) _
    _ = (i + 1) * d.numClasses := by ring
    _ ≤ d.numStates * d.numClasses := Nat.mul_le_mul_right _ hi
  rw [List.getD_eq_getElem _ _ hidx]
  obtain ⟨j, hj, he⟩ := hd.tableStride _ (d.table.getElem_mem hidx)
  exact (mem_stateIds d _).mpr ⟨j, hj, he⟩

theorem DFAInv.dead_next (d : DenseDFA) (hd : DFAInv d) (b : Nat) :
    d.next_state 0 b = 0 := by
  have h0 : d.next_state (0 * d.stride) b = d.table.getD (0 * d.numClasses + d.classify b) 0 :=
    hd.next_state_getD d 0 b
  rw [Nat.zero_mul] at h0
  rw [h0, Nat.zero_mul, Nat.zero_add]
  exact hd.deadRow _ (hd.classify_lt d b)

theorem DFAInv.dead_not_match (d : DenseDFA) (hd : DFAInv d) :
    d.is_match 0 = false := by
  unfold DenseDFA.is_match
  rw [List.contains_eq_any_beq, List.any_eq_false]
  intro m hm
  obtain ⟨i, hip, _, he⟩ := hd.matchMem m hm
  have : m ≠ 0 := by
    rw [he]
    exact Nat.ne_of_gt (Nat.mul_pos hip (hd.stridePos d))
  simpa using Ne.symm this

theorem lookupRanges_rangesAux (f : Nat → Nat) :
    ∀ fuel lo cur tgt, cur + fuel = 256 → lo < cur →
      (∀ x, lo ≤ x → x < cur → f x = tgt) →
      ∀ b, lo ≤ b → b < 256 → lookupRanges (rangesAux f fuel lo cur tgt) b = f b := by
  intro fuel
  induction fuel with
  | zero =>
      intro lo cur tgt hc hlo hconst b hb hb'
      have hcur : cur = 256 := by omega
      subst hcur
      show lookupRanges [(lo, 255, tgt)] b = f b
      have : lo ≤ b ∧ b ≤ 255 := ⟨hb, by omega⟩
      simp only [lookupRanges, if_pos this]
      exact (hconst b hb (by omega)).symm
  | succ fuel ih =>
      intro lo cur tgt hc hlo hconst b hb hb'
      show lookupRanges
        (if f cur = tgt then rangesAux f fuel lo (cur + 1) tgt
         else (lo, cur - 1, tgt) :: rangesAux f fuel cur (cur + 1) (f cur)) b = f b
      by_cases hf : f cur = tgt
      · rw [if_pos hf]
        refine ih lo (cur + 1) tgt (by omega) (by omega) ?_ b hb hb'
        intro x hx hx'
        rcases Nat.lt_or_ge x cur with h | h
        · exact hconst x hx h
        · have : x = cur := by omega
          rw [this, hf]
      · rw [if_neg hf]
        by_cases hbc : b < cur
        · have hcond : lo ≤ b ∧ b ≤ cur - 1 := ⟨hb, by omega⟩
          simp only [lookupRanges, if_pos hcond]
          exact (hconst b hb hbc).symm
        · have hcond : ¬ (lo ≤ b ∧ b ≤ cur - 1) := by omega
          simp only [lookupRanges, if_neg hcond]
          refine ih cur (cur + 1) (f cur) (by omega) (by omega) ?_ b (by omega) hb'
          intro x hx hx'
          have : x = cur := by omega
          rw [this]

theorem lookupRanges_byteRanges (f : Nat → Nat) (b : Nat) (hb : b < 256) :
    lookupRanges (byteRanges f) b = f b := by
  refine lookupRanges_rangesAux f 255 0 1 (f 0) rfl Nat.one_pos ?_ b (Nat.zero_le b) hb
  intro x _ hx
  have : x = 0 := by omega
  rw [this]

theorem coveredRanges_rangesAux (f : Nat → Nat) :
    ∀ fuel lo cur tgt, cur + fuel = 256 → lo < cur →
      ∀ b, lo ≤ b → b < 256 →
        coveredRanges (rangesAux f fuel lo cur tgt) b = true := by
  intro fuel
  induction fuel with
  | zero =>
      intro lo cur tgt hc hlo b hb hb'
      have hcur : cur = 256 := by omega
      subst hcur
      show ((decide (lo ≤ b) && decide (b ≤ 255)) || coveredRanges [] b) = true
      have h1 : decide (lo ≤ b) = true := decide_eq_true hb
      have h2 : decide (b ≤ 255) = true := decide_eq_true (by omega)
      rw [h1, h2]
      rfl
  | succ fuel ih =>
      intro lo cur tgt hc hlo b hb hb'
      show coveredRanges
        (if f cur = tgt then rangesAux f fuel lo (cur + 1) tgt
         else (lo, cur - 1, tgt) :: rangesAux f fuel cur (cur + 1) (f cur)) b = true
      by_cases hf : f cur = tgt
      · rw [if_pos hf]
        exact ih lo (cur + 1) tgt (by omega) (by omega) b hb hb'
      · rw [if_neg hf]
        by_cases hbc : b < cur
        · show ((decide (lo ≤ b) && decide (b ≤ cur - 1)) || _) = true
          have h1 : decide (lo ≤ b) = true := decide_eq_true hb
          have h2 : decide (b ≤ cur - 1) = true := decide_eq_true (by omega)
          rw [h1, h2]
          rfl
        · show ((decide (lo ≤ b) && decide (b ≤ cur - 1)) || _) = true
          have h2 : decide (b ≤ cur - 1) = false := decide_eq_false (by omega)
          rw [h2, Bool.and_false, Bool.false_or]
          exact ih cur (cur + 1) (f cur) (by omega) (by omega) b (by omega) hb'

theorem coveredRanges_byteRanges (f : Nat → Nat) (b : Nat) (hb : b < 256) :
    coveredRanges (byteRanges f) b = true :=
  coveredRanges_rangesAux f 255 0 1 (f 0) rfl Nat.one_pos b (Nat.zero_le b) hb

theorem lookup_map_pair {β : Type} (g : Nat → β) :
    ∀ (l : List Nat) (s : Nat), s ∈ l →
      (l.map (fun x => (x, g x))).lookup s = some (g s) := by
  intro l
  induction l with
  | nil => intro s hs; exact absurd hs (List.not_mem_nil s)
  | cons x l ih =>
      intro s hs
      show List.lookup s ((x, g x) :: l.map (fun x => (x, g x))) = some (g s)
      by_cases hx : s = x
      · subst hx
        simp [List.lookup]
      · have hbe : (s == x) = false := by simpa using hx
        rw [List.lookup, hbe]
        exact ih s (by
          rcases List.mem_cons.mp hs with h | h
          · exact absurd h hx
          · exact h)

theorem sparse_next_eq (d : DenseDFA) (s b : Nat) (hs : s ∈ d.stateIds)
    (hb : b < 256) : (d.to_sparse).next_state s b = d.next_state s b := by
  unfold SparseDFA.next_state DenseDFA.to_sparse
  dsimp only
  rw [lookup_map_pair (fun s => byteRanges (fun b => d.next_state s b)) d.stateIds s hs]
  exact lookupRanges_byteRanges _ b hb

theorem sparse_lookup_state (d : DenseDFA) (s : Nat) (hs : s ∈ d.stateIds) :
    (d.to_sparse).states.lookup s =
      some (byteRanges (fun b => d.next_state s b)) := by
  unfold DenseDFA.to_sparse
  exact lookup_map_pair (fun s => byteRanges (fun b => d.next_state s b))
    d.stateIds s hs

theorem sparse_next_stateChecked_eq (d : DenseDFA) (s b : Nat)
    (hs : s ∈ d.stateIds) (hb : b < 256) :
    (d.to_sparse).next_stateChecked s b =
      some ((d.to_sparse).next_state s b) := by
  unfold SparseDFA.next_stateChecked SparseDFA.next_state
  rw [sparse_lookup_state d s hs]
  dsimp only
  rw [if_pos (coveredRanges_byteRanges _ b hb)]

theorem sparse_is_match_eq (d : DenseDFA) (s : Nat) :
    (d.to_sparse).is_match s = d.is_match s := rfl

theorem sparse_is_dead_eq (d : DenseDFA) (s : Nat) :
    (d.to_sparse).is_dead s = d.is_dead s := rfl

theorem findEndFrom_congr (A B : Autom) (I : Nat → Prop)
    (hnext : ∀ s b, I s → b < 256 → A.next s b = B.next s b)
    (hclosed : ∀ s b, I s → b < 256 → I (B.next s b))
    (hmatch : ∀ s, I s → A.isMatch s = B.isMatch s)
    (hdead : ∀ s, I s → A.isDead s = B.isDead s) :
    ∀ (bs : List Nat) (s pos : Nat) (last : Option Nat), I s →
      (∀ b ∈ bs, b < 256) →
      findEndFrom A s pos last bs = findEndFrom B s pos last bs := by
  intro bs
  induction bs with
  | nil => intro s pos last _ _; rfl
  | cons b bs ih =>
      intro s pos last hI hbs
      have hb : b < 256 := hbs b (List.mem_cons_self b bs)
      show (if A.isDead s then last
            else findEndFrom A (A.next s b) (pos + 1)
              (if A.isMatch (A.next s b) then some (pos + 1) else last) bs) =
           (if B.isDead s then last
            else findEndFrom B (B.next s b) (pos + 1)
              (if B.isMatch (B.next s b) then some (pos + 1) else last) bs)
      rw [hdead s hI, hnext s b hI hb, hmatch _ (hclosed s b hI hb)]
      by_cases hds : B.isDead s
      · rw [if_pos hds, if_pos hds]
      · rw [if_neg hds, if_neg hds]
        exact ih _ _ _ (hclosed s b hI hb) (fun x hx => hbs x (List.mem_cons_of_mem b hx))

theorem isMatchFrom_congr (A B : Autom) (I : Nat → Prop)
    (hnext : ∀ s b, I s → b < 256 → A.next s b = B.next s b)
    (hclosed : ∀ s b, I s → b < 256 → I (B.next s b))
    (hmatch : ∀ s, I s → A.isMatch s = B.isMatch s)
    (hdead : ∀ s, I s → A.isDead s = B.isDead s) :
    ∀ (bs : List Nat) (s : Nat), I s → (∀ b ∈ bs, b < 256) →
      isMatchFrom A s bs = isMatchFrom B s bs := by
  intro bs
  induction bs with
  | nil => intro s hI _; exact hmatch s hI
  | cons b bs ih =>
      intro s hI hbs
      have hb : b < 256 := hbs b (List.mem_cons_self b bs)
      show (if A.isMatch s then true else if A.isDead s then false
              else isMatchFrom A (A.next s b) bs) =
           (if B.isMatch s then true else if B.isDead s then false
              else isMatchFrom B (B.next s b) bs)
      rw [hmatch s hI, hdead s hI, hnext s b hI hb]
      by_cases hm : B.isMatch s
      · rw [if_pos hm, if_pos hm]
      · rw [if_neg hm, if_neg hm]
        by_cases hds : B.isDead s
        · rw [if_pos hds, if_pos hds]
        · rw [if_neg hds, if_neg hds]
          exact ih _ (hclosed s b hI hb) (fun x hx => hbs x (List.mem_cons_of_mem b hx))

theorem findStartFrom_congr (A B : Autom) (I : Nat → Prop)
    (hnext : ∀ s b, I s → b < 256 → A.next s b = B.next s b)
    (hclosed : ∀ s b, I s → b < 256 → I (B.next s b))
    (hmatch : ∀ s, I s → A.isMatch s = B.isMatch s)
    (hdead : ∀ s, I s → A.isDead s = B.isDead s) :
    ∀ (bs : List Nat) (s pos : Nat) (best : Option Nat), I s →
      (∀ b ∈ bs, b < 256) →
      findStartFrom A s pos best bs = findStartFrom B s pos best bs := by
  intro bs
  induction bs with
  | nil => intro s pos best _ _; rfl
  | cons b bs ih =>
      intro s pos best hI hbs
      have hb : b < 256 := hbs b (List.mem_cons_self b bs)
      show (if A.isDead s then best
            else findStartFrom A (A.next s b) (pos - 1)
              (if A.isMatch (A.next s b) then some (pos - 1) else best) bs) =
           (if B.isDead s then best
            else findStartFrom B (B.next s b) (pos - 1)
              (if B.isMatch (B.next s b) then some (pos - 1) else best) bs)
      rw [hdead s hI, hnext s b hI hb, hmatch _ (hclosed s b hI hb)]
      by_cases hds : B.isDead s
      · rw [if_pos hds, if_pos hds]
      · rw [if_neg hds, if_neg hds]
        exact ih _ _ _ (hclosed s b hI hb) (fun x hx => hbs x (List.mem_cons_of_mem b hx))

theorem findEndFrom_mono (a : Autom) :
    ∀ (bs : List Nat) (s pos : Nat) (last : Option Nat), last.isSome = true →
      (findEndFrom a s pos last bs).isSome = true := by
  intro bs
  induction bs with
  | nil => intro s pos last h; exact h
  | cons b bs ih =>
      intro s pos last h
      show (if a.isDead s then last
            else findEndFrom a (a.next s b) (pos + 1)
              (if a.isMatch (a.next s b) then some (pos + 1) else last) bs).isSome = true
      by_cases hds : a.isDead s
      · rw [if_pos hds]; exact h
      · rw [if_neg hds]
        refine ih _ _ _ ?_
        by_cases hm : a.isMatch (a.next s b)
        · rw [if_pos hm]; rfl
        · rw [if_neg hm]; exact h

theorem findEndFrom_isSome (a : Autom) :
    ∀ (bs : List Nat) (s pos : Nat) (last : Option Nat),
      (a.isMatch s = true → last.isSome = true) →
      (findEndFrom a s pos last bs).isSome = (last.isSome || isMatchFrom a s bs) := by
  intro bs
  induction bs with
  | nil =>
      intro s pos last h
      show last.isSome = (last.isSome || a.isMatch s)
      by_cases hm : a.isMatch s
      · rw [hm, h hm]; rfl
      · rw [Bool.eq_false_iff.mpr hm, Bool.or_false]
  | cons b bs ih =>
      intro s pos last h
      show (if a.isDead s then last
            else findEndFrom a (a.next s b) (pos + 1)
              (if a.isMatch (a.next s b) then some (pos + 1) else last) bs).isSome =
        (last.isSome || (if a.isMatch s then true
          else if a.isDead s then false else isMatchFrom a (a.next s b) bs))
      by_cases hm : a.isMatch s
      · rw [if_pos hm, Bool.or_true]
        have hl : last.isSome = true := h hm
        by_cases hds : a.isDead s
        · rw [if_pos hds]; exact hl
        · rw [if_neg hds]
          refine findEndFrom_mono a bs _ _ _ ?_
          by_cases hm' : a.isMatch (a.next s b)
          · rw [if_pos hm']; rfl
          · rw [if_neg hm']; exact hl
      · rw [if_neg hm]
        by_cases hds : a.isDead s
        · rw [if_pos hds, if_pos hds, Bool.or_false]
        · rw [if_neg hds, if_neg hds]
          set last' := if a.isMatch (a.next s b) then some (pos + 1) else last with hl'
          have h' : a.isMatch (a.next s b) = true → last'.isSome = true := by
            intro hm'
            rw [hl', if_pos hm']
            rfl
          rw [ih _ _ _ h']
          by_cases hm' : a.isMatch (a.next s b)
          · rw [hl', if_pos hm']
            have : isMatchFrom a (a.next s b) bs = true := by
              cases bs with
              | nil => exact hm'
              | cons c cs => show (if a.isMatch (a.next s b) then true else _) = true
                             rw [if_pos hm']
            rw [this]
            simp
          · rw [hl', if_neg hm']

theorem runDFA_append (a : Autom) :
    ∀ (xs ys : List Nat) (s : Nat),
      runDFA a s (xs ++ ys) = runDFA a (runDFA a s xs) ys := by
  intro xs
  induction xs with
  | nil => intro ys s; rfl
  | cons x xs ih => intro ys s; exact ih ys (a.next s x)

theorem findEndFrom_sound (a : Autom) :
    ∀ (bs : List Nat) (s pos : Nat) (last : Option Nat) (e : Nat),
      findEndFrom a s pos last bs = some e →
      last = some e ∨ ∃ k, 1 ≤ k ∧ k ≤ bs.length ∧ e = pos + k ∧
        a.isMatch (runDFA a s (bs.take k)) = true := by
  intro bs
  induction bs with
  | nil => intro s pos last e h; exact Or.inl h
  | cons b bs ih =>
      intro s pos last e h
      rw [show findEndFrom a s pos last (b :: bs) =
            (if a.isDead s then last
             else findEndFrom a (a.next s b) (pos + 1)
               (if a.isMatch (a.next s b) then some (pos + 1) else last) bs) from rfl] at h
      by_cases hds : a.isDead s
      · rw [if_pos hds] at h
        exact Or.inl h
      · rw [if_neg hds] at h
        rcases ih _ _ _ _ h with h' | ⟨k, hk1, hk2, hke, hkm⟩
        · by_cases hm : a.isMatch (a.next s b)
          · rw [if_pos hm] at h'
            have he : e = pos + 1 := (Option.some.inj h').symm
            refine Or.inr ⟨1, le_refl 1, by simp, by omega, ?_⟩
            show a.isMatch (runDFA a s ((b :: bs).take 1)) = true
            simpa [runDFA] using hm
          · rw [if_neg hm] at h'
            exact Or.inl h'
        · refine Or.inr ⟨k + 1, by omega, by simpa using Nat.succ_le_succ hk2, by omega, ?_⟩
          show a.isMatch (runDFA a s (b :: bs.take k)) = true
          exact hkm

/-- The dead-state invariant of a built automaton (spec §3): the dead state
never matches and self-absorbs on every byte. -/
def DeadInv (a : Autom) : Prop :=
  ∀ s b, a.isDead s = true → a.isMatch s = false ∧ a.isDead (a.next s b) = true

/-- The regex invariant (spec §3): the reverse automaton recognizes the
reversal of the language the forward automaton recognizes (stated in the
direction the span-recovery argument consumes). -/
def RevInv (fwd rev : Autom) : Prop :=
  ∀ w : List Nat, fwd.isMatch (runDFA fwd fwd.start w) = true →
    rev.isMatch (runDFA rev rev.start w.reverse) = true

theorem deadRun (a : Autom) (hdead : DeadInv a) :
    ∀ (bs : List Nat) (s : Nat), a.isDead s = true →
      a.isDead (runDFA a s bs) = true := by
  intro bs
  induction bs with
  | nil => intro s h; exact h
  | cons b bs ih => intro s h; exact ih _ ((hdead s b h).2)

theorem find_end_sound (a : Autom) (input : List Nat) (e : Nat)
    (h : find_end a input = some e) :
    e ≤ input.length ∧ a.isMatch (runDFA a a.start (input.take e)) = true := by
  unfold find_end at h
  rcases findEndFrom_sound a input a.start 0
      (if a.isMatch a.start then some 0 else none) e h with h' | ⟨k, _, hk2, hke, hkm⟩
  · by_cases hm : a.isMatch a.start
    · rw [if_pos hm] at h'
      have he : e = 0 := (Option.some.inj h').symm
      subst he
      exact ⟨Nat.zero_le _, by simpa [runDFA] using hm⟩
    · rw [if_neg hm] at h'
      exact absurd h' (by simp)
  · have he : e = k := by omega
    subst he
    exact ⟨hk2, hkm⟩

theorem find_end_isSome (a : Autom) (input : List Nat) :
    (find_end a input).isSome = isMatchFrom a a.start input := by
  unfold find_end
  have h : a.isMatch a.start = true →
      (if a.isMatch a.start then some 0 else none : Option Nat).isSome = true := by
    intro hm
    rw [if_pos hm]
    rfl
  rw [findEndFrom_isSome a input a.start 0 _ h]
  by_cases hm : a.isMatch a.start
  · rw [if_pos hm]
    have : isMatchFrom a a.start input = true := by
      cases input with
      | nil => exact hm
      | cons c cs => show (if a.isMatch a.start then true else _) = true
                     rw [if_pos hm]
    rw [this]
    simp
  · rw [if_neg hm]
    simp

theorem findStartFrom_complete (a : Autom) :
    ∀ (bs : List Nat) (s pos : Nat) (best : Option Nat),
      (∀ k, k ≤ bs.length → a.isDead (runDFA a s (bs.take k)) = false) →
      a.isMatch (runDFA a s bs) = true →
      (a.isMatch s = true → ∃ r, best = some r ∧ r ≤ pos) →
      ∃ r, findStartFrom a s pos best bs = some r ∧ r ≤ pos := by
  intro bs
  induction bs with
  | nil =>
      intro s pos best _ hm hb
      exact hb hm
  | cons b bs ih =>
      intro s pos best hnd hm hb
      have hds : a.isDead s = false := by
        simpa [runDFA] using hnd 0 (Nat.zero_le _)
      show ∃ r, (if a.isDead s then best
            else findStartFrom a (a.next s b) (pos - 1)
              (if a.isMatch (a.next s b) then some (pos - 1) else best) bs) = some r ∧
            r ≤ pos
      rw [hds]
      simp only [Bool.false_eq_true, if_false]
      have hnd' : ∀ k, k ≤ bs.length →
          a.isDead (runDFA a (a.next s b) (bs.take k)) = false := by
        intro k hk
        have := hnd (k + 1) (by simpa using Nat.succ_le_succ hk)
        simpa [runDFA] using this
      have hm' : a.isMatch (runDFA a (a.next s b) bs) = true := by
        simpa [runDFA] using hm
      have hb' : a.isMatch (a.next s b) = true →
          ∃ r, (if a.isMatch (a.next s b) then some (pos - 1) else best) = some r ∧
            r ≤ pos - 1 := by
        intro hmn
        exact ⟨pos - 1, by rw [if_pos hmn], le_refl _⟩
      obtain ⟨r, hr, hrle⟩ := ih (a.next s b) (pos - 1) _ hnd' hm' hb'
      exact ⟨r, hr, Nat.le_trans hrle (Nat.sub_le pos 1)⟩

theorem find_start_some (a : Autom) (p : List Nat) (hdead : DeadInv a)
    (hm : a.isMatch (runDFA a a.start p.reverse) = true) :
    ∃ s, find_start a p = some s ∧ s ≤ p.length := by
  unfold find_start
  have hnd : ∀ k, k ≤ p.reverse.length →
      a.isDead (runDFA a a.start (p.reverse.take k)) = false := by
    intro k _
    by_contra h
    simp only [Bool.not_eq_false] at h
    have hfull : a.isDead (runDFA a a.start p.reverse) = true := by
      rw [← List.take_append_drop k p.reverse, runDFA_append]
      exact deadRun a hdead _ _ h
    have h2 := (hdead _ 0 hfull).1
    rw [hm] at h2
    exact Bool.noConfusion h2
  have hb : a.isMatch a.start = true →
      ∃ r, (if a.isMatch a.start then some p.length else none) = some r ∧
        r ≤ p.length := by
    intro hms
    exact ⟨p.length, by rw [if_pos hms], le_refl _⟩
  exact findStartFrom_complete a p.reverse a.start p.length _ hnd hm hb

theorem regex_find_start_le (fwd rev : Autom) (input : List Nat) (e : Nat)
    (hdead : DeadInv rev) (hrev : RevInv fwd rev)
    (hfind : find_end fwd input = some e) :
    ∃ s, find_start rev (input.take e) = some s ∧ s ≤ e := by
  obtain ⟨hel, hm⟩ := find_end_sound fwd input e hfind
  have hm' := hrev (input.take e) hm
  obtain ⟨s, hs, hsle⟩ := find_start_some rev (input.take e) hdead hm'
  rw [List.length_take] at hsle
  exact ⟨s, hs, by omega⟩

theorem runDFA_triv : ∀ (bs : List Nat) (s : Nat), runDFA trivAutom s bs = s := by
  intro bs
  induction bs with
  | nil => intro s; rfl
  | cons b bs ih => intro s; exact ih s

theorem trivDeadInv : DeadInv trivAutom := by
  intro s b h
  have hs : s = 0 := by simpa [trivAutom] using h
  subst hs
  exact ⟨rfl, rfl⟩

theorem trivRevInv : RevInv trivAutom trivAutom := by
  intro w _
  rw [runDFA_triv]
  rfl

theorem length_natToBytesLE (n : Nat) : ∀ k, (natToBytesLE n k).length = k := by
  intro k
  induction k generalizing n with
  | zero => rfl
  | succ k ih => simpa [natToBytesLE] using ih (n / 256)

theorem length_natBytes (e : Endianness) (k n : Nat) :
    (natBytes e k n).length = k := by
  cases e <;> simp [natBytes, length_natToBytesLE]

theorem bytesToNatLE_natToBytesLE :
    ∀ (k n : Nat), n < 256 ^ k → bytesToNatLE (natToBytesLE n k) = n := by
  intro k
  induction k with
  | zero =>
      intro n h
      have : n = 0 := by simpa using Nat.lt_one_iff.mp (by simpa using h)
      simp [this, natToBytesLE, bytesToNatLE]
  | succ k ih =>
      intro n h
      show bytesToNatLE (n % 256 :: natToBytesLE (n / 256) k) = n
      have hdiv : n / 256 < 256 ^ k := by
        rw [Nat.div_lt_iff_lt_mul (by omega)]
        calc n < 256 ^ (k + 1) := h
        _ = 256 ^ k * 256 := by ring
      show n % 256 % 256 + 256 * bytesToNatLE (natToBytesLE (n / 256) k) = n
      rw [Nat.mod_mod_of_dvd _ (dvd_refl 256), ih _ hdiv]
      omega

theorem readNat_natBytes (e : Endianness) (k n : Nat) (h : n < 256 ^ k) :
    readNat e (natBytes e k n) = n := by
  cases e <;> simp [readNat, natBytes, List.reverse_reverse] <;>
    exact bytesToNatLE_natToBytesLE k n h

theorem takeBytes_append (k : Nat) (xs ys : List Nat) (h : xs.length = k) :
    takeBytes k (xs ++ ys) = Except.ok (xs, ys) := by
  unfold takeBytes
  have hle : k ≤ (xs ++ ys).length := by
    rw [List.length_append, h]
    omega
  rw [if_pos hle, ← h, List.take_left, List.drop_left]

theorem readChunks_append (e : Endianness) (k : Nat) :
    ∀ (vs rest : List Nat), (∀ v ∈ vs, v < 256 ^ k) →
      readChunks e k vs.length ((vs.map (natBytes e k)).flatten ++ rest) =
        Except.ok (vs, rest) := by
  intro vs
  induction vs with
  | nil => intro rest _; rfl
  | cons v vs ih =>
      intro rest hv
      show (do
        let (c, r) ← takeBytes k ((natBytes e k v ++ (vs.map (natBytes e k)).flatten) ++ rest)
        let (vs', r') ← readChunks e k vs.length r
        Except.ok (readNat e c :: vs', r')) = Except.ok (v :: vs, rest)
      rw [List.append_assoc,
        takeBytes_append k _ _ (length_natBytes e k v)]
      show (do
        let (vs', r') ← readChunks e k vs.length ((vs.map (natBytes e k)).flatten ++ rest)
        Except.ok (readNat e (natBytes e k v) :: vs', r')) = Except.ok (v :: vs, rest)
      rw [ih rest (fun x hx => hv x (List.mem_cons_of_mem v hx))]
      show Except.ok (readNat e (natBytes e k v) :: vs, rest) = Except.ok (v :: vs, rest)
      rw [readNat_natBytes e k v (hv v (List.mem_cons_self v vs))]

theorem readChunks_exact (e : Endianness) (k : Nat) (vs : List Nat)
    (hv : ∀ v ∈ vs, v < 256 ^ k) :
    readChunks e k vs.length ((vs.map (natBytes e k)).flatten) =
      Except.ok (vs, []) := by
  have := readChunks_append e k vs [] hv
  rwa [List.append_nil] at this

theorem tagWidth_widthTag (w : Width) : tagWidth (widthTag w) = some w := by
  cases w <;> rfl

theorem tagVariant_variantTag (v : Variant) : tagVariant (variantTag v) = some v := by
  cases v <;> rfl

/-- The size conditions under which a dense DFA is exactly representable in
the serialized format (`u32` count fields, `width`-byte state ids). -/
def DenseDFA.Serializable (d : DenseDFA) : Prop :=
  d.numClasses < 2 ^ 32 ∧ d.numStates < 2 ^ 32 ∧
    d.matchStates.length < 2 ^ 32 ∧ d.start < 256 ^ d.width.bytes ∧
    (∀ m ∈ d.matchStates, m < 256 ^ d.width.bytes) ∧
    (∀ x ∈ d.table, x < 256 ^ d.width.bytes) ∧
    d.table.length = d.numStates * d.numClasses ∧ d.classes.length = 256

theorem bind_ok_eq {α β : Type} (a : α) (f : α → Except RegexError β) :
    (Except.ok a >>= f) = f a := rfl

theorem pure_eq_ok {α : Type} (a : α) :
    (pure a : Except RegexError α) = Except.ok a := rfl

set_option maxHeartbeats 2000000 in
theorem from_bytes_to_bytes (d : DenseDFA) (e : Endianness)
    (hs : d.Serializable) :
    DenseDFA.from_bytes e (d.to_bytes e) = Except.ok d := by
  obtain ⟨h1, h2, h3, h4, h5, h6, h7, h8⟩ := hs
  have hfv : FORMAT_VERSION < 256 ^ 4 := by decide
  have hpow : (2 : Nat) ^ 32 = 256 ^ 4 := by decide
  have h1' : d.numClasses < 256 ^ 4 := by omega
  have h2' : d.numStates < 256 ^ 4 := by omega
  have h3' : d.matchStates.length < 256 ^ 4 := by omega
  unfold DenseDFA.to_bytes DenseDFA.from_bytes
  simp only [List.append_assoc]
  rw [takeBytes_append 4 _ _ (length_natBytes e 4 FORMAT_VERSION)]
  simp only [bind_ok_eq]
  rw [readNat_natBytes e 4 FORMAT_VERSION hfv]
  simp only [ne_eq, not_true_eq_false, Bool.false_eq_true, if_false,
    ite_false, reduceIte]
  simp only [pure_eq_ok, bind_ok_eq]
  rw [takeBytes_append 1 [endianTag e] _ rfl]
  simp only [bind_ok_eq, not_true_eq_false, if_false, ite_false, reduceIte]
  rw [takeBytes_append 1 [widthTag d.width] _ rfl]
  simp only [bind_ok_eq, List.getD_cons_zero, tagWidth_widthTag]
  rw [takeBytes_append 1 [variantTag d.variant] _ rfl]
  simp only [bind_ok_eq, List.getD_cons_zero, tagVariant_variantTag]
  rw [takeBytes_append 4 _ _ (length_natBytes e 4 d.numClasses)]
  simp only [bind_ok_eq]
  rw [takeBytes_append 256 _ _ h8]
  simp only [bind_ok_eq]
  rw [takeBytes_append 4 _ _ (length_natBytes e 4 d.numStates)]
  simp only [bind_ok_eq]
  rw [takeBytes_append d.width.bytes _ _ (length_natBytes e d.width.bytes d.start)]
  simp only [bind_ok_eq]
  rw [takeBytes_append 4 _ _ (length_natBytes e 4 d.matchStates.length)]
  simp only [bind_ok_eq]
  rw [readNat_natBytes e 4 d.matchStates.length h3',
    readChunks_append e d.width.bytes d.matchStates _ h5]
  simp only [bind_ok_eq]
  rw [readNat_natBytes e 4 d.numStates h2', readNat_natBytes e 4 d.numClasses h1',
    ← h7, readChunks_exact e d.width.bytes d.table h6]
  simp only [bind_ok_eq, not_true_eq_false, if_false, ite_false, reduceIte]
  rw [readNat_natBytes e d.width.bytes d.start h4]

theorem bind_error_eq {α β : Type} (r : RegexError)
    (f : α → Except RegexError β) : (Except.error r >>= f) = Except.error r := rfl

theorem takeBytes_ok (k : Nat) (bs c r : List Nat)
    (h : takeBytes k bs = Except.ok (c, r)) :
    c = bs.take k ∧ r = bs.drop k ∧ bs.length = k + r.length := by
  unfold takeBytes at h
  split at h
  case isTrue hk =>
    obtain ⟨hc, hr⟩ := Prod.mk.injEq _ _ _ _ ▸ Except.ok.inj h
    refine ⟨hc.symm, hr.symm, ?_⟩
    rw [hr.symm] at *
    rw [← hr, List.length_drop]
    omega
  case isFalse => exact absurd h (by simp)

theorem takeBytes_error (k : Nat) (bs : List Nat) (r : RegexError)
    (h : takeBytes k bs = Except.error r) :
    r = RegexError.SerializationFormatMismatch := by
  unfold takeBytes at h
  split at h
  · exact absurd h (by simp)
  · exact (Except.error.inj h).symm

theorem readChunks_ok (e : Endianness) (k : Nat) :
    ∀ (n : Nat) (bs : List Nat) (vs r : List Nat),
      readChunks e k n bs = Except.ok (vs, r) →
      vs.length = n ∧ bs.length = k * n + r.length := by
  intro n
  induction n with
  | zero =>
      intro bs vs r h
      obtain ⟨hv, hr⟩ := Prod.mk.injEq _ _ _ _ ▸ Except.ok.inj h
      rw [← hv, ← hr]
      simp
  | succ n ih =>
      intro bs vs r h
      rw [show readChunks e k (n + 1) bs = (do
        let (c, r1) ← takeBytes k bs
        let (vs', r') ← readChunks e k n r1
        Except.ok (readNat e c :: vs', r')) from rfl] at h
      rcases h1 : takeBytes k bs with r1 | ⟨c, r1⟩
      · rw [h1, bind_error_eq] at h
        exact absurd h (by simp)
      · rw [h1] at h
        simp only [bind_ok_eq] at h
        rcases h2 : readChunks e k n r1 with r2 | ⟨vs', r'⟩
        · rw [h2] at h
          simp only [bind_error_eq] at h
          exact absurd h (by simp)
        · rw [h2] at h
          simp only [bind_ok_eq] at h
          obtain ⟨hv, hr⟩ := Prod.mk.injEq _ _ _ _ ▸ Except.ok.inj h
          obtain ⟨hl1, hl2⟩ := ih r1 vs' r' h2
          obtain ⟨_, _, hl3⟩ := takeBytes_ok k bs c r1 h1
          rw [← hv, ← hr]
          constructor
          · simpa using hl1
          · calc bs.length = k + r1.length := hl3
            _ = k + (k * n + r'.length) := by rw [hl2]
            _ = k * (n + 1) + r'.length := by ring

theorem throw_eq_error {α : Type} (r : RegexError) :
    (throw r : Except RegexError α) = Except.error r := rfl

theorem readChunks_error (e : Endianness) (k : Nat) :
    ∀ (n : Nat) (bs : List Nat) (r : RegexError),
      readChunks e k n bs = Except.error r →
      r = RegexError.SerializationFormatMismatch := by
  intro n
  induction n with
  | zero => intro bs r h; exact absurd h (by simp [readChunks])
  | succ n ih =>
      intro bs r h
      rw [show readChunks e k (n + 1) bs = (do
        let (c, r1) ← takeBytes k bs
        let (vs', r') ← readChunks e k n r1
        Except.ok (readNat e c :: vs', r')) from rfl] at h
      rcases h1 : takeBytes k bs with r1 | ⟨c, r1⟩
      · rw [h1, bind_error_eq] at h
        rw [takeBytes_error k bs r1 h1] at h
        exact (Except.error.inj h).symm
      · rw [h1] at h
        simp only [bind_ok_eq] at h
        rcases h2 : readChunks e k n r1 with r2 | ⟨vs', r'⟩
        · rw [h2] at h
          simp only [bind_error_eq] at h
          rw [ih r1 r2 h2] at h
          exact (Except.error.inj h).symm
        · rw [h2] at h
          simp only [bind_ok_eq] at h
          exact absurd h (by simp)

set_option maxHeartbeats 2000000 in
theorem from_bytes_inv (native : Endianness) (buf : List Nat) :
    (∃ d : DenseDFA, DenseDFA.from_bytes native buf = Except.ok d ∧
      readNat native (buf.take 4) = FORMAT_VERSION ∧
      (buf.drop 4).take 1 = [endianTag native] ∧
      buf.length = 275 + d.width.bytes + d.width.bytes * d.matchStates.length +
        d.width.bytes * (d.numStates * d.numClasses)) ∨
    DenseDFA.from_bytes native buf =
      Except.error RegexError.SerializationFormatMismatch := by
  unfold DenseDFA.from_bytes
  rcases h1 : takeBytes 4 buf with r1 | ⟨vb, r1⟩
  · right
    rw [bind_error_eq, takeBytes_error 4 buf r1 h1]
  · simp only [bind_ok_eq]
    obtain ⟨hvb, hr1, hL1⟩ := takeBytes_ok 4 buf vb r1 h1
    by_cases hver : readNat native vb ≠ FORMAT_VERSION
    · right
      rw [if_pos hver]
      simp only [throw_eq_error, bind_error_eq]
    · rw [if_neg hver]
      push_neg at hver
      simp only [pure_eq_ok, bind_ok_eq]
      rcases h2 : takeBytes 1 r1 with r2 | ⟨eb, r2⟩
      · right
        rw [bind_error_eq, takeBytes_error 1 r1 r2 h2]
      · simp only [bind_ok_eq]
        obtain ⟨heb, hr2, hL2⟩ := takeBytes_ok 1 r1 eb r2 h2
        by_cases hend : eb ≠ [endianTag native]
        · right
          rw [if_pos hend]
          simp only [throw_eq_error, bind_error_eq]
        · rw [if_neg hend]
          push_neg at hend
          try simp only [pure_eq_ok, bind_ok_eq]
          rcases h3 : takeBytes 1 r2 with r3 | ⟨wb, r3⟩
          · right
            rw [bind_error_eq, takeBytes_error 1 r2 r3 h3]
          · simp only [bind_ok_eq]
            obtain ⟨hwb, hr3, hL3⟩ := takeBytes_ok 1 r2 wb r3 h3
            rcases hw : tagWidth (wb.getD 0 0) with _ | w
            · right
              rfl
            · dsimp only
              rcases h4 : takeBytes 1 r3 with r4 | ⟨vrb, r4⟩
              · right
                rw [bind_error_eq, takeBytes_error 1 r3 r4 h4]
              · simp only [bind_ok_eq]
                obtain ⟨hvrb, hr4, hL4⟩ := takeBytes_ok 1 r3 vrb r4 h4
                rcases hv : tagVariant (vrb.getD 0 0) with _ | v
                · right
                  rfl
                · dsimp only
                  rcases h5 : takeBytes 4 r4 with r5 | ⟨ncb, r5⟩
                  · right
                    rw [bind_error_eq, takeBytes_error 4 r4 r5 h5]
                  · simp only [bind_ok_eq]
                    obtain ⟨hncb, hr5, hL5⟩ := takeBytes_ok 4 r4 ncb r5 h5
                    rcases h6 : takeBytes 256 r5 with r6 | ⟨cls, r6⟩
                    · right
                      rw [bind_error_eq, takeBytes_error 256 r5 r6 h6]
                    · simp only [bind_ok_eq]
                      obtain ⟨hcls, hr6, hL6⟩ := takeBytes_ok 256 r5 cls r6 h6
                      rcases h7 : takeBytes 4 r6 with r7 | ⟨nsb, r7⟩
                      · right
                        rw [bind_error_eq, takeBytes_error 4 r6 r7 h7]
                      · simp only [bind_ok_eq]
                        obtain ⟨hnsb, hr7, hL7⟩ := takeBytes_ok 4 r6 nsb r7 h7
                        rcases h8 : takeBytes w.bytes r7 with r8 | ⟨stb, r8⟩
                        · right
                          rw [bind_error_eq, takeBytes_error _ r7 r8 h8]
                        · simp only [bind_ok_eq]
                          obtain ⟨hstb, hr8, hL8⟩ := takeBytes_ok _ r7 stb r8 h8
                          rcases h9 : takeBytes 4 r8 with r9 | ⟨nmb, r9⟩
                          · right
                            rw [bind_error_eq, takeBytes_error 4 r8 r9 h9]
                          · simp only [bind_ok_eq]
                            obtain ⟨hnmb, hr9, hL9⟩ := takeBytes_ok 4 r8 nmb r9 h9
                            rcases h10 : readChunks native w.bytes (readNat native nmb) r9 with r10 | ⟨ms, r10⟩
                            · right
                              rw [bind_error_eq,
                                readChunks_error native w.bytes _ r9 r10 h10]
                            · simp only [bind_ok_eq]
                              obtain ⟨hms, hL10⟩ := readChunks_ok native w.bytes _ r9 ms r10 h10
                              rcases h11 : readChunks native w.bytes
                                  (readNat native nsb * readNat native ncb) r10 with r11 | ⟨tbl, r11⟩
                              · right
                                rw [bind_error_eq,
                                  readChunks_error native w.bytes _ r10 r11 h11]
                              · simp only [bind_ok_eq]
                                obtain ⟨htbl, hL11⟩ :=
                                  readChunks_ok native w.bytes _ r10 tbl r11 h11
                                by_cases hrest : r11 ≠ []
                                · right
                                  rw [if_pos hrest]
                                  simp only [throw_eq_error, bind_error_eq]
                                · rw [if_neg hrest]
                                  push_neg at hrest
                                  left
                                  refine ⟨_, rfl, by rw [← hvb]; exact hver, ?_, ?_⟩
                                  · rw [← hr1, ← heb]
                                    exact hend
                                  · show buf.length = 275 + w.bytes + w.bytes * ms.length +
                                      w.bytes * (readNat native nsb * readNat native ncb)
                                    rw [hrest] at hL11
                                    simp only [List.length_nil] at hL11
                                    rw [hms]
                                    omega

theorem from_bytes_wrong_endian (d : DenseDFA) :
    DenseDFA.from_bytes Endianness.little (d.to_bytes Endianness.big) =
      Except.error RegexError.SerializationFormatMismatch := by
  unfold DenseDFA.to_bytes DenseDFA.from_bytes
  simp only [List.append_assoc]
  rw [takeBytes_append 4 _ _ (length_natBytes Endianness.big 4 FORMAT_VERSION)]
  simp only [bind_ok_eq]
  rw [if_pos (by decide)]
  simp only [throw_eq_error, bind_error_eq]

theorem maxVal_lt_pow (w : Width) : w.maxVal < 256 ^ w.bytes := by
  cases w <;> decide

theorem build_serializable (w : Width) (v : Variant) (t0 : Topology)
    (d : DenseDFA) (h : DenseDFA.build w v t0 = Except.ok d)
    (hc : d.numClasses < 2 ^ 32) (hn : d.numStates < 2 ^ 32)
    (hm : d.matchStates.length < 2 ^ 32) : d.Serializable := by
  have hd := build_ok_inv w v t0 d h
  refine ⟨hc, hn, hm,
    Nat.lt_of_le_of_lt hd.widthStart (maxVal_lt_pow d.width),
    fun m hmm => Nat.lt_of_le_of_lt (hd.widthMatch m hmm) (maxVal_lt_pow d.width),
    fun x hx => Nat.lt_of_le_of_lt (hd.widthTable x hx) (maxVal_lt_pow d.width),
    hd.tableLen, hd.classLen⟩

theorem build_overflow_iff (w : Width) (v : Variant) (t0 : Topology) :
    DenseDFA.build w v t0 = Except.error RegexError.StateIDOverflow ↔
      w.maxVal < (t0.numStates - 1) * strideMult v t0 := by
  unfold DenseDFA.build
  constructor
  · intro h
    by_cases hov : (t0.numStates - 1) * strideMult v t0 > w.maxVal
    · exact hov
    · rw [if_neg hov] at h
      split at h
      · exact absurd h (by simp)
      · exact absurd h (by simp)
  · intro h
    rw [if_pos h]

theorem find_end_sparse (d : DenseDFA) (hd : DFAInv d) (input : List Nat)
    (hin : ∀ b ∈ input, b < 256) :
    find_end d.to_sparse.toAutom input = find_end d.toAutom input := by
  unfold find_end
  exact findEndFrom_congr d.to_sparse.toAutom d.toAutom (fun s => s ∈ d.stateIds)
    (fun s b hs hb => sparse_next_eq d s b hs hb)
    (fun s b hs _ => hd.next_mem d s b hs)
    (fun _ _ => rfl) (fun _ _ => rfl)
    input d.start 0 (if d.is_match d.start then some 0 else none)
    (hd.start_mem d) hin

theorem is_match_sparse (d : DenseDFA) (hd : DFAInv d) (input : List Nat)
    (hin : ∀ b ∈ input, b < 256) :
    isMatchFrom d.to_sparse.toAutom d.to_sparse.toAutom.start input =
      isMatchFrom d.toAutom d.toAutom.start input := by
  exact isMatchFrom_congr d.to_sparse.toAutom d.toAutom (fun s => s ∈ d.stateIds)
    (fun s b hs hb => sparse_next_eq d s b hs hb)
    (fun s b hs _ => hd.next_mem d s b hs)
    (fun _ _ => rfl) (fun _ _ => rfl)
    input d.start (hd.start_mem d) hin

theorem find_start_sparse (d : DenseDFA) (hd : DFAInv d) (p : List Nat)
    (hp : ∀ b ∈ p, b < 256) :
    find_start d.to_sparse.toAutom p = find_start d.toAutom p := by
  unfold find_start
  exact findStartFrom_congr d.to_sparse.toAutom d.toAutom (fun s => s ∈ d.stateIds)
    (fun s b hs hb => sparse_next_eq d s b hs hb)
    (fun s b hs _ => hd.next_mem d s b hs)
    (fun _ _ => rfl) (fun _ _ => rfl)
    p.reverse d.start p.length (if d.is_match d.start then some p.length else none)
    (hd.start_mem d) (fun b hb => hp b (List.mem_reverse.mp hb))

theorem regex_sparse_equiv (d1 d2 : DenseDFA) (h1 : DFAInv d1) (h2 : DFAInv d2)
    (input : List Nat) (hin : ∀ b ∈ input, b < 256) :
    (Regex.from_dfas d1.to_sparse.toAutom d2.to_sparse.toAutom).is_match input =
      (Regex.from_dfas d1.toAutom d2.toAutom).is_match input ∧
    (Regex.from_dfas d1.to_sparse.toAutom d2.to_sparse.toAutom).find input =
      (Regex.from_dfas d1.toAutom d2.toAutom).find input := by
  constructor
  · exact is_match_sparse d1 h1 input hin
  · unfold Regex.find
    show (match find_end d1.to_sparse.toAutom input with
      | none => none
      | some e =>
          match find_start d2.to_sparse.toAutom (input.take e) with
          | none => none
          | some s => some (s, e)) =
      (match find_end d1.toAutom input with
      | none => none
      | some e =>
          match find_start d2.toAutom (input.take e) with
          | none => none
          | some s => some (s, e))
    rw [find_end_sparse d1 h1 input hin]
    cases find_end d1.toAutom input with
    | none => rfl
    | some e =>
        dsimp only
        rw [find_start_sparse d2 h2 (input.take e)
          (fun b hb => hin b (List.take_subset e input hb))]

theorem builtDFA_width (w : Width) (v : Variant) (t : Topology) :
    (builtDFA w v t).width = w := by
  cases v <;> rfl

/-- C5: for every validly built automaton, dense or sparse, the dead state
is an absorbing non-matching sentinel: `next_state(dead, b) = dead` for every
byte `b`, and `is_match(dead) = false`. -/
theorem c5_dead_state_sentinel (w : Width) (v : Variant) (t0 : Topology)
    (d : DenseDFA) (h : DenseDFA.build w v t0 = Except.ok d) :
    (∀ b, b < 256 → d.next_state d.dead b = d.dead ∧
      (d.to_sparse).next_state d.dead b = d.dead) ∧
    d.is_match d.dead = false ∧ (d.to_sparse).is_match d.dead = false ∧
    d.is_dead d.dead = true ∧ (d.to_sparse).is_dead d.dead = true := by
  have hd := build_ok_inv w v t0 d h
  refine ⟨?_, hd.dead_not_match d, hd.dead_not_match d, rfl, rfl⟩
  intro b hb
  refine ⟨hd.dead_next d b, ?_⟩
  show (d.to_sparse).next_state 0 b = 0
  rw [sparse_next_eq d 0 b (hd.dead_mem d) hb]
  exact hd.dead_next d b

/-- C6: once a dense or sparse DFA is validly built, `next_state`,
`is_match` and `is_dead` are total and infallible: every byte (including
every value `0..255`) classifies to a valid class, the bounds-checked dense
transition lookup always succeeds and agrees with `next_state`, every state
of the sparse re-encoding has a range list in which every byte value
resolves (the bounds-checked sparse lookup also always succeeds and agrees
with its `next_state`), and both successors are again states of the
automaton. -/
theorem c6_lookups_total (w : Width) (v : Variant) (t0 : Topology)
    (d : DenseDFA) (h : DenseDFA.build w v t0 = Except.ok d) :
    (∀ b : Nat, d.classify b < d.numClasses) ∧
    (∀ s ∈ d.stateIds, ∀ b : Nat,
      d.next_stateChecked s b = some (d.next_state s b) ∧
      d.next_state s b ∈ d.stateIds) ∧
    (∀ s ∈ d.stateIds, ∃ rs, (d.to_sparse).states.lookup s = some rs ∧
      ∀ b, b < 256 → coveredRanges rs b = true) ∧
    (∀ s ∈ d.stateIds, ∀ b, b < 256 →
      (d.to_sparse).next_stateChecked s b =
        some ((d.to_sparse).next_state s b) ∧
      (d.to_sparse).next_state s b ∈ d.stateIds) := by
  have hd := build_ok_inv w v t0 d h
  refine ⟨hd.classify_lt d, ?_, ?_, ?_⟩
  case refine_2 =>
    intro s hs
    exact ⟨byteRanges (fun b => d.next_state s b), sparse_lookup_state d s hs,
      fun b hb => coveredRanges_byteRanges _ b hb⟩
  case refine_3 =>
    intro s hs b hb
    refine ⟨sparse_next_stateChecked_eq d s b hs hb, ?_⟩
    rw [sparse_next_eq d s b hs hb]
    exact hd.next_mem d s b hs
  intro s hs b
  refine ⟨?_, hd.next_mem d s b hs⟩
  obtain ⟨i, hi, rfl⟩ := (mem_stateIds d s).mp hs
  unfold DenseDFA.next_stateChecked
  rw [if_pos (hd.classify_lt d b)]
  have hidx : d.rowOffset (i * d.stride) + d.classify b < d.table.length := by
    rw [hd.rowOffset_eq d i, hd.tableLen]
    calc i * d.numClasses + d.classify b
        < i * d.numClasses + d.numClasses :=
          Nat.add_lt_add_left (hd.classify_lt d b) _
    _ = (i + 1) * d.numClasses := by ring
    _ ≤ d.numStates * d.numClasses := Nat.mul_le_mul_right _ hi
  show d.table.get? (d.rowOffset (i * d.stride) + d.classify b) =
    some (d.next_state (i * d.stride) b)
  unfold DenseDFA.next_state
  rw [List.get?_eq_getElem?, List.getD_eq_getElem?_getD,
    List.getElem?_eq_getElem hidx]
  rfl

/-- C7: dense construction fails with `StateIDOverflow` iff the maximum
state identifier, multiplied by the alphabet stride for the pre-multiplied
variant, exceeds the chosen width's representable range; on success every
stored id fits the width and equals its logical state index times the
stride, so no truncation occurs. -/
theorem c7_state_id_overflow (w : Width) (v : Variant) (t0 : Topology) :
    (DenseDFA.build w v t0 = Except.error RegexError.StateIDOverflow ↔
      w.maxVal < (t0.numStates - 1) * strideMult v t0) ∧
    (∀ d, DenseDFA.build w v t0 = Except.ok d →
      d.width = w ∧ d.start ≤ w.maxVal ∧
      ∀ x ∈ d.table, x ≤ w.maxVal ∧ ∃ i, i < d.numStates ∧ x = i * d.stride) := by
  refine ⟨build_overflow_iff w v t0, ?_⟩
  intro d h
  have hd := build_ok_inv w v t0 d h
  have hw : d.width = w := by
    obtain ⟨_, _, rfl⟩ := build_ok_elim w v t0 d h
    exact builtDFA_width w v (normTopo t0)
  refine ⟨hw, hw ▸ hd.widthStart, ?_⟩
  intro x hx
  exact ⟨hw ▸ hd.widthTable x hx, hd.tableStride x hx⟩

/-- C10: a dense DFA built with the default configuration is the
`PremultipliedByteClass` variant: its stored ids are the logical state
indices pre-multiplied by the byte-class count and transitions are read
through the byte-class table. -/
theorem index_div_mod (C i c : Nat) (hc : c < C) :
    (i * C + c) / C = i ∧ (i * C + c) % C = c := by
  have hcp : 0 < C := Nat.lt_of_le_of_lt (Nat.zero_le c) hc
  constructor
  · rw [Nat.add_comm (i * C) c, Nat.mul_comm i C,
      Nat.add_mul_div_left c i hcp, Nat.div_eq_of_lt hc, Nat.zero_add]
  · rw [Nat.add_comm (i * C) c, Nat.mul_comm i C,
      Nat.add_mul_mod_self_left, Nat.mod_eq_of_lt hc]

theorem premult_encoding (w : Width) (t0 : Topology) (d : DenseDFA)
    (h : DenseDFA.build w Variant.PremultipliedByteClass t0 = Except.ok d) :
    d.variant = Variant.PremultipliedByteClass ∧
    d.stride = d.numClasses ∧
    (∀ i c, i < d.numStates → c < d.numClasses →
      d.table.getD (i * d.numClasses + c) 0 =
        buildEntry (normTopo t0) i c * d.numClasses) ∧
    (∀ i b, i < d.numStates → b < 256 →
      d.next_state (i * d.numClasses) b =
        buildEntry (normTopo t0) i (d.classify b) * d.numClasses) := by
  obtain ⟨hov, hct, rfl⟩ := build_ok_elim w _ t0 _ h
  set t := normTopo t0 with ht
  have hv : (builtDFA w Variant.PremultipliedByteClass t).variant =
      Variant.PremultipliedByteClass := rfl
  have hnc : (builtDFA w Variant.PremultipliedByteClass t).numClasses =
      t.numClasses := rfl
  have hns : (builtDFA w Variant.PremultipliedByteClass t).numStates =
      t.numStates := rfl
  have htb : (builtDFA w Variant.PremultipliedByteClass t).table =
      buildTableBC t t.numClasses := rfl
  have hstr : (builtDFA w Variant.PremultipliedByteClass t).stride =
      t.numClasses := rfl
  refine ⟨hv, hstr.trans hnc.symm, ?_, ?_⟩
  · intro i c hi hc
    rw [hnc] at hc
    rw [hns] at hi
    rw [htb, hnc]
    have hlt : i * t.numClasses + c < t.numStates * t.numClasses := by
      calc i * t.numClasses + c < i * t.numClasses + t.numClasses :=
            Nat.add_lt_add_left hc _
      _ = (i + 1) * t.numClasses := by ring
      _ ≤ t.numStates * t.numClasses := Nat.mul_le_mul_right _ hi
    rw [getD_buildTableBC t t.numClasses _ hlt]
    obtain ⟨hdiv, hmod⟩ := index_div_mod t.numClasses i c hc
    rw [hdiv, hmod]
  · intro i b hi hb
    have hd := builtDFA_inv w Variant.PremultipliedByteClass t0 hov hct
    rw [hns] at hi
    simp only [hnc]
    have hcb : (builtDFA w Variant.PremultipliedByteClass t).classify b <
        t.numClasses := by
      have := hd.classify_lt _ b
      rwa [hnc] at this
    have hstep := hd.next_state_getD _ i b
    rw [hstr, hnc, htb] at hstep
    rw [hstep]
    have hlt : i * t.numClasses +
        (builtDFA w Variant.PremultipliedByteClass t).classify b <
        t.numStates * t.numClasses := by
      calc i * t.numClasses + _ < i * t.numClasses + t.numClasses :=
            Nat.add_lt_add_left hcb _
      _ = (i + 1) * t.numClasses := by ring
      _ ≤ t.numStates * t.numClasses := Nat.mul_le_mul_right _ hi
    rw [getD_buildTableBC t t.numClasses _ hlt]
    obtain ⟨hdiv, hmod⟩ := index_div_mod t.numClasses i _ hcb
    rw [hdiv, hmod]

/-- C10: a dense DFA built with the default configuration is the
`PremultipliedByteClass` variant: its stored ids are the logical state
indices pre-multiplied by the byte-class count and transitions are read
through the byte-class table. -/
theorem c10_default_premultiplied (t0 : Topology) (d : DenseDFA)
    (h : DenseDFA.buildDefault t0 = Except.ok d) :
    d.variant = Variant.PremultipliedByteClass ∧
    d.stride = d.numClasses ∧
    (∀ i c, i < d.numStates → c < d.numClasses →
      d.table.getD (i * d.numClasses + c) 0 =
        buildEntry (normTopo t0) i c * d.numClasses) ∧
    (∀ i b, i < d.numStates → b < 256 →
      d.next_state (i * d.numClasses) b =
        buildEntry (normTopo t0) i (d.classify b) * d.numClasses) := by
  unfold DenseDFA.buildDefault at h
  exact premult_encoding _ t0 d h

/-- C1: the sparse DFA built from a dense DFA agrees with it on
`next_state` for every state and every byte value, and on `is_match` and
`is_dead` everywhere; consequently a regex rebuilt via `from_dfas` from the
sparse forms of the forward and reverse automata accepts and rejects
identically to the dense regex on every input. -/
theorem c1_sparse_refines_dense (w1 : Width) (v1 : Variant) (t1 : Topology)
    (w2 : Width) (v2 : Variant) (t2 : Topology) (d1 d2 : DenseDFA)
    (h1 : DenseDFA.build w1 v1 t1 = Except.ok d1)
    (h2 : DenseDFA.build w2 v2 t2 = Except.ok d2) :
    (∀ s ∈ d1.stateIds, ∀ b, b < 256 →
      (d1.to_sparse).next_state s b = d1.next_state s b) ∧
    (∀ s, (d1.to_sparse).is_match s = d1.is_match s ∧
      (d1.to_sparse).is_dead s = d1.is_dead s) ∧
    (d1.to_sparse).start_state = d1.start_state ∧
    (∀ input : List Nat, (∀ b ∈ input, b < 256) →
      (Regex.from_dfas (d1.to_sparse).toAutom (d2.to_sparse).toAutom).is_match input =
        (Regex.from_dfas d1.toAutom d2.toAutom).is_match input ∧
      (Regex.from_dfas (d1.to_sparse).toAutom (d2.to_sparse).toAutom).find input =
        (Regex.from_dfas d1.toAutom d2.toAutom).find input) := by
  have hd1 := build_ok_inv w1 v1 t1 d1 h1
  have hd2 := build_ok_inv w2 v2 t2 d2 h2
  refine ⟨?_, fun s => ⟨rfl, rfl⟩, rfl, ?_⟩
  · intro s hs b hb
    exact sparse_next_eq d1 s b hs hb
  · intro input hin
    exact regex_sparse_equiv d1 d2 hd1 hd2 input hin

/-- C2: deserializing the buffer produced by serializing a validly built
dense DFA — at either supported endianness, as an owning copy or as a
borrowed view — yields the automaton itself, hence identical matching
behaviour on every input.  The size bounds are those imposed by the spec's
`u32` count fields. -/
theorem c2_serialization_roundtrip (w : Width) (v : Variant) (t0 : Topology)
    (d : DenseDFA) (e : Endianness)
    (h : DenseDFA.build w v t0 = Except.ok d)
    (hc : d.numClasses < 2 ^ 32) (hn : d.numStates < 2 ^ 32)
    (hm : d.matchStates.length < 2 ^ 32) :
    DenseDFA.from_bytes e (d.to_bytes e) = Except.ok d ∧
    DenseDFA.from_bytes_borrowed e (d.to_bytes e) = Except.ok d ∧
    (∀ d', DenseDFA.from_bytes e (d.to_bytes e) = Except.ok d' →
      ∀ input : List Nat,
        find_end d'.toAutom input = find_end d.toAutom input ∧
        isMatchFrom d'.toAutom d'.toAutom.start input =
          isMatchFrom d.toAutom d.toAutom.start input) := by
  have hser := build_serializable w v t0 d h hc hn hm
  have hrt := from_bytes_to_bytes d e hser
  refine ⟨hrt, hrt, ?_⟩
  intro d' hd' input
  rw [hrt] at hd'
  rw [← Except.ok.inj hd']
  exact ⟨rfl, rfl⟩

/-- C3: whenever the forward automaton of a regex reports a match ending at
offset `e`, running the reverse automaton backward from `e` over
`input[0..e]` finds a match start `s ≤ e` — a match found by the forward
DFA guarantees that the reverse DFA also finds a match.  The hypotheses are
the regex invariants of spec §3: the reverse automaton recognizes the
reversal of the forward language and has an absorbing non-matching dead
state. -/
theorem c3_reverse_finds_start (re : Regex) (input : List Nat) (e : Nat)
    (hdead : DeadInv re.reverse) (hrev : RevInv re.forward re.reverse)
    (hfind : find_end re.forward input = some e) :
    ∃ s, find_start re.reverse (input.take e) = some s ∧ s ≤ e :=
  regex_find_start_le re.forward re.reverse input e hdead hrev hfind

/-- C4: `Regex.find` returns `none` whenever `Regex.is_match` is `false`,
and returns `some m` with `m.start ≤ m.end ≤ input.length` (a half-open
zero-indexed span) whenever `is_match` is `true`, under the regex invariants
of spec §3. -/
theorem c4_find_is_match_relation (re : Regex) (input : List Nat)
    (hdead : DeadInv re.reverse) (hrev : RevInv re.forward re.reverse) :
    (re.is_match input = false → re.find input = none) ∧
    (re.is_match input = true →
      ∃ m, re.find input = some m ∧ m.1 ≤ m.2 ∧ m.2 ≤ input.length) := by
  constructor
  · intro hfalse
    have h1 : (find_end re.forward input).isSome = false := by
      rw [find_end_isSome]
      exact hfalse
    have h2 : find_end re.forward input = none := by
      rcases hx : find_end re.forward input with _ | e
      · rfl
      · rw [hx] at h1
        exact absurd h1 (by simp)
    unfold Regex.find
    rw [h2]
  · intro htrue
    have h1 : (find_end re.forward input).isSome = true := by
      rw [find_end_isSome]
      exact htrue
    rcases hx : find_end re.forward input with _ | e
    · rw [hx] at h1
      exact absurd h1 (by simp)
    · obtain ⟨s, hs, hsle⟩ :=
        regex_find_start_le re.forward re.reverse input e hdead hrev hx
      have hel := (find_end_sound re.forward input e hx).1
      refine ⟨(s, e), ?_, hsle, hel⟩
      unfold Regex.find
      rw [hx]
      dsimp only
      rw [hs]

/-- C8: `from_bytes` validates the format-version tag, the endianness tag
and the buffer length against the declared dimensions before exposing any
automaton; every rejected buffer yields `SerializationFormatMismatch` and
never a usable automaton; in particular a big-endian buffer read by a
little-endian decoder fails with `SerializationFormatMismatch`; the borrowed
deserializer validates identically. -/
theorem c8_from_bytes_validation :
    (∀ (native : Endianness) (buf : List Nat) (d : DenseDFA),
      DenseDFA.from_bytes native buf = Except.ok d →
      readNat native (buf.take 4) = FORMAT_VERSION ∧
      (buf.drop 4).take 1 = [endianTag native] ∧
      buf.length = 275 + d.width.bytes + d.width.bytes * d.matchStates.length +
        d.width.bytes * (d.numStates * d.numClasses)) ∧
    (∀ (native : Endianness) (buf : List Nat),
      (∃ d, DenseDFA.from_bytes native buf = Except.ok d) ∨
      DenseDFA.from_bytes native buf =
        Except.error RegexError.SerializationFormatMismatch) ∧
    (∀ d : DenseDFA,
      DenseDFA.from_bytes Endianness.little (d.to_bytes Endianness.big) =
        Except.error RegexError.SerializationFormatMismatch) ∧
    (∀ (native : Endianness) (buf : List Nat),
      DenseDFA.from_bytes_borrowed native buf = DenseDFA.from_bytes native buf) := by
  refine ⟨?_, ?_, from_bytes_wrong_endian, fun _ _ => rfl⟩
  · intro native buf d hok
    rcases from_bytes_inv native buf with ⟨d', hd', hfacts⟩ | herr
    · rw [hok] at hd'
      rw [← Except.ok.inj hd'] at hfacts
      exact hfacts
    · rw [hok] at herr
      exact absurd herr (by simp)
  · intro native buf
    rcases from_bytes_inv native buf with ⟨d', hd', _⟩ | herr
    · exact Or.inl ⟨d', hd'⟩
    · exact Or.inr herr

set_option maxRecDepth 8000 in
/-- C9: for the regex built from the pattern `foo[0-9]+` and the input
`foo12345`, `find` returns the span `{start := 0, end := 8}`, and the
forward DFA's end-of-match search returns offset `8`. -/
theorem c9_foo_scenario :
    fooRegex.find fooInput = some (0, 8) ∧
    find_end fooFwd.toAutom fooInput = some 8 := by
  constructor <;> decide

set_option maxRecDepth 100000

theorem tiny_build_ok :
    DenseDFA.build Width.W1 Variant.PremultipliedByteClass tinyTopo =
      Except.ok tinyD := by decide

theorem tinyDefault_ok :
    DenseDFA.buildDefault tinyTopo = Except.ok tinyD := by decide

/-- Concrete instance of `c1_sparse_refines_dense` on the two-state DFA. -/
theorem c1_witness :
    (tinyD.to_sparse).next_state 1 0 = tinyD.next_state 1 0 ∧
    (Regex.from_dfas (tinyD.to_sparse).toAutom (tinyD.to_sparse).toAutom).find [0, 0] =
      (Regex.from_dfas tinyD.toAutom tinyD.toAutom).find [0, 0] := by
  have h := c1_sparse_refines_dense Width.W1 Variant.PremultipliedByteClass tinyTopo
    Width.W1 Variant.PremultipliedByteClass tinyTopo tinyD tinyD
    tiny_build_ok tiny_build_ok
  exact ⟨h.1 1 (by decide) 0 (by decide), (h.2.2.2 [0, 0] (by decide)).2⟩

/-- Concrete instance of `c2_serialization_roundtrip` on the two-state DFA. -/
theorem c2_witness :
    DenseDFA.from_bytes Endianness.little (tinyD.to_bytes Endianness.little) =
      Except.ok tinyD :=
  (c2_serialization_roundtrip Width.W1 Variant.PremultipliedByteClass tinyTopo
    tinyD Endianness.little tiny_build_ok (by decide) (by decide) (by decide)).1

/-- Concrete instance of `c3_reverse_finds_start` on the always-matching
automaton. -/
theorem c3_witness :
    ∃ s, find_start (Regex.from_dfas trivAutom trivAutom).reverse
      (([5] : List Nat).take 1) = some s ∧ s ≤ 1 :=
  c3_reverse_finds_start (Regex.from_dfas trivAutom trivAutom) [5] 1
    trivDeadInv trivRevInv (by decide)

/-- Concrete instance of `c4_find_is_match_relation` on the always-matching
automaton. -/
theorem c4_witness :
    ∃ m, (Regex.from_dfas trivAutom trivAutom).find [5] = some m ∧
      m.1 ≤ m.2 ∧ m.2 ≤ ([5] : List Nat).length :=
  (c4_find_is_match_relation (Regex.from_dfas trivAutom trivAutom) [5]
    trivDeadInv trivRevInv).2 (by decide)

/-- Concrete instance of `c5_dead_state_sentinel` on the two-state DFA. -/
theorem c5_witness :
    tinyD.next_state tinyD.dead 7 = tinyD.dead ∧
    tinyD.is_match tinyD.dead = false := by
  have h := c5_dead_state_sentinel Width.W1 Variant.PremultipliedByteClass
    tinyTopo tinyD tiny_build_ok
  exact ⟨(h.1 7 (by decide)).1, h.2.1⟩

/-- Concrete instance of `c6_lookups_total` on the two-state DFA, covering
both the dense and the sparse lookups. -/
theorem c6_witness :
    tinyD.next_stateChecked 1 0 = some (tinyD.next_state 1 0) ∧
    (tinyD.to_sparse).next_stateChecked 1 0 =
      some ((tinyD.to_sparse).next_state 1 0) := by
  have h := c6_lookups_total Width.W1 Variant.PremultipliedByteClass
    tinyTopo tinyD tiny_build_ok
  exact ⟨(h.2.1 1 (by decide) 0).1, (h.2.2.2 1 (by decide) 0 (by decide)).1⟩

/-- Concrete instance of `c7_state_id_overflow`: a 300-state topology
overflows a one-byte id width. -/
theorem c7_witness :
    DenseDFA.build Width.W1 Variant.PremultipliedByteClass bigTopo =
      Except.error RegexError.StateIDOverflow :=
  (c7_state_id_overflow Width.W1 Variant.PremultipliedByteClass bigTopo).1.mpr
    (by decide)

/-- Concrete instance of `c8_from_bytes_validation`: a big-endian buffer
fails under the little-endian decoder. -/
theorem c8_witness :
    DenseDFA.from_bytes Endianness.little (tinyD.to_bytes Endianness.big) =
      Except.error RegexError.SerializationFormatMismatch :=
  c8_from_bytes_validation.2.2.1 tinyD

/-- Concrete instance of `c10_default_premultiplied` on the two-state
DFA. -/
theorem c10_witness :
    tinyD.variant = Variant.PremultipliedByteClass ∧
    tinyD.stride = tinyD.numClasses := by
  have h := c10_default_premultiplied tinyTopo tinyD tinyDefault_ok
  exact ⟨h.1, h.2.1⟩
